import Mathlib

/-!
Verification of the AevIP synchronization layer of the cmsjs repository
(`src/src/core/aevip/viewport-sync.js`): the diff/apply engine
(`AevIPProtocol.computeDiff`, `applyPatch`, `applyOperation`), the outbound
patch queue with retry/backoff (`queuePatch`, `sendPatchWithRetry`, `pause`,
`resume`, `flushQueue`), and the visibility-driven delivery layer
(`ViewportSync.observeElement`, `unobserveElement`, `handleIntersection`,
`handlePatch`, `applyPendingUpdate`).

The JavaScript values handled by the diff engine are embedded as `JVal`:
JSON-style data plus the JavaScript `undefined` (reading an absent object
property yields `undefined`, and `computeDiff` branches on exactly that).
Numbers are embedded as integers: every number appearing in the claims is an
integer, and the engine never does arithmetic on them, it only moves them
around and compares them.  Object fields are an insertion-ordered list of
key/value pairs (`JFields`), matching JavaScript property order for plain
string keys.

The source compares values with `JSON.stringify(x) !== JSON.stringify(y)`.
On the embedded domain restricted to canonical values (`canonV`: no
`undefined` inside objects, no duplicate keys), `JSON.stringify` is injective
(string literals are escaped, integer printing is injective, key order is
preserved), so serialized-value comparison coincides with structural
equality; the embedding uses structural equality and the round-trip theorems
carry the `canonV` hypotheses that justify it.
-/

set_option autoImplicit false

namespace CmsJs

/-! ## JavaScript value model -/

mutual
/-- A JavaScript value as handled by the diff/apply engine. -/
inductive JVal where
  | undefined : JVal
  | null : JVal
  | bool (b : Bool) : JVal
  | num (n : Int) : JVal
  | str (s : String) : JVal
  | obj (fields : JFields) : JVal

/-- Ordered fields of a JavaScript object. -/
inductive JFields where
  | nil : JFields
  | cons (k : String) (v : JVal) (rest : JFields) : JFields
end

mutual
def beqV : JVal → JVal → Bool
  | .undefined, .undefined => true
  | .null, .null => true
  | .bool b, .bool b' => b == b'
  | .num n, .num n' => n == n'
  | .str s, .str s' => s == s'
  | .obj fs, .obj gs => beqF fs gs
  | _, _ => false

def beqF : JFields → JFields → Bool
  | .nil, .nil => true
  | .cons k v r, .cons k' v' r' => k == k' && beqV v v' && beqF r r'
  | _, _ => false
end

mutual
theorem beqV_refl : ∀ v : JVal, beqV v v = true
  | .undefined => rfl
  | .null => rfl
  | .bool b => by simp [beqV]
  | .num n => by simp [beqV]
  | .str s => by simp [beqV]
  | .obj fs => by simp [beqV, beqF_refl fs]

theorem beqF_refl : ∀ fs : JFields, beqF fs fs = true
  | .nil => rfl
  | .cons k v r => by simp [beqF, beqV_refl v, beqF_refl r]
end

mutual
theorem eq_of_beqV : ∀ {v w : JVal}, beqV v w = true → v = w
  | .undefined, .undefined, _ => rfl
  | .null, .null, _ => rfl
  | .bool b, .bool b', h => by simp [beqV] at h; simp [h]
  | .num n, .num n', h => by simp [beqV] at h; simp [h]
  | .str s, .str s', h => by simp [beqV] at h; simp [h]
  | .obj fs, .obj gs, h => by
      simp only [beqV] at h
      simp [eq_of_beqF h]

theorem eq_of_beqF : ∀ {fs gs : JFields}, beqF fs gs = true → fs = gs
  | .nil, .nil, _ => rfl
  | .cons k v r, .cons k' v' r', h => by
      simp only [beqF, Bool.and_eq_true, beq_iff_eq] at h
      obtain ⟨⟨h1, h2⟩, h3⟩ := h
      simp [h1, eq_of_beqV h2, eq_of_beqF h3]
end

instance : DecidableEq JVal := fun v w =>
  if h : beqV v w = true then .isTrue (eq_of_beqV h)
  else .isFalse (fun he => h (he ▸ beqV_refl v))

instance : DecidableEq JFields := fun fs gs =>
  if h : beqF fs gs = true then .isTrue (eq_of_beqF h)
  else .isFalse (fun he => h (he ▸ beqF_refl fs))

instance : BEq JVal := ⟨fun v w => decide (v = w)⟩

instance {ε α : Type} [DecidableEq ε] [DecidableEq α] : DecidableEq (Except ε α) :=
  fun x y =>
    match x, y with
    | .ok a, .ok b =>
        if h : a = b then .isTrue (by rw [h]) else .isFalse (by simp [h])
    | .error e, .error e' =>
        if h : e = e' then .isTrue (by rw [h]) else .isFalse (by simp [h])
    | .ok _, .error _ => .isFalse (by simp)
    | .error _, .ok _ => .isFalse (by simp)

namespace JFields

/-- Property read with the JavaScript default: an absent key reads as
`undefined`.  Models `fields[k]` on a plain object. -/
def getD : JFields → String → JVal
  | .nil, _ => .undefined
  | .cons k' v rest, k => if k' = k then v else rest.getD k

/-- Models the JavaScript `in` operator on a plain object. -/
def hasKey : JFields → String → Bool
  | .nil, _ => false
  | .cons k' _ rest, k => k' = k || rest.hasKey k

/-- Models `Object.keys`. -/
def keys : JFields → List String
  | .nil => []
  | .cons k _ rest => k :: rest.keys

/-- Property assignment `fields[k] = v`: an existing key keeps its position,
a new key is appended (JavaScript insertion order for string keys). -/
def set : JFields → String → JVal → JFields
  | .nil, k, v => .cons k v .nil
  | .cons k' v' rest, k, v =>
      if k' = k then .cons k v rest else .cons k' v' (rest.set k v)

/-- Property deletion `delete fields[k]`.  JavaScript objects cannot hold a
duplicate key, so removing every matching entry agrees with the source on
all reachable field lists. -/
def remove : JFields → String → JFields
  | .nil, _ => .nil
  | .cons k' v rest, k =>
      if k' = k then rest.remove k else .cons k' v (rest.remove k)

end JFields

/-- The JavaScript `typeof x === 'object'` test: true for `null` and for
plain objects, false for `undefined`, booleans, numbers and strings. -/
def isObjType : JVal → Bool
  | .null => true
  | .obj _ => true
  | _ => false

/-- Optional-chaining property read `x?.[k]`: `undefined` when `x` is
`null`/`undefined` or has no such key; primitives have no own keys. -/
def safeGet : JVal → String → JVal
  | .obj fs, k => fs.getD k
  | _, _ => .undefined

/-- Keys contributed to the union `Object.keys(x || {})`: `null` (falsy)
contributes none. -/
def keysOf : JVal → List String
  | .obj fs => fs.keys
  | _ => []

/-- First-occurrence deduplication, the iteration order of
`new Set([...ks1, ...ks2])`. -/
def dedupFirstAux (seen : List String) : List String → List String
  | [] => []
  | k :: ks =>
      if k ∈ seen then dedupFirstAux seen ks
      else k :: dedupFirstAux (k :: seen) ks

def dedupFirst (l : List String) : List String := dedupFirstAux [] l

/-- One RFC 6902-style operation as built by `computeDiff`; data model
invariant of the spec: `remove` carries no value. -/
inductive Op where
  | add (path : String) (value : JVal)
  | replace (path : String) (value : JVal)
  | remove (path : String)
  deriving DecidableEq

/-- Per-key body of the `for (const key of allKeys)` loop of
`AevIPProtocol.computeDiff` (viewport-sync.js:604-615).  The serialized
comparison `JSON.stringify(beforeVal) !== JSON.stringify(afterVal)` is
embedded as structural inequality, justified on canonical values (see the
file header). -/
def diffKey (before after : JVal) (key : String) : Option Op :=
  let beforeVal := safeGet before key
  let afterVal := safeGet after key
  if beforeVal = .undefined ∧ afterVal ≠ .undefined then
    some (.add ("/" ++ key) afterVal)
  else if beforeVal ≠ .undefined ∧ afterVal = .undefined then
    some (.remove ("/" ++ key))
  else if beforeVal ≠ afterVal then
    some (.replace ("/" ++ key) afterVal)
  else none

/-- `AevIPProtocol.computeDiff` (viewport-sync.js:593-623). -/
def computeDiff (before after : JVal) : List Op :=
  if isObjType before && isObjType after then
    (dedupFirst (keysOf before ++ keysOf after)).filterMap (diffKey before after)
  else if before ≠ after then [.replace "" after] else []

/-- Character-level model of JavaScript `path.split('/')`. -/
def splitSlash : List Char → List (List Char)
  | [] => [[]]
  | c :: cs =>
      if c = '/' then [] :: splitSlash cs
      else
        match splitSlash cs with
        | [] => [[c]]
        | p :: ps => (c :: p) :: ps

/-- `path.split('/').filter(p => p)` of `applyOperation`
(viewport-sync.js:654): split on `'/'` and drop empty segments. -/
def splitPath (s : String) : List String :=
  ((splitSlash s.data).map (fun cs => String.mk cs)).filter (fun p => p ≠ "")

/-- The JavaScript truthiness test used by `if (!current)` in the `remove`
branch of `applyOperation`. -/
def jsFalsy : JVal → Bool
  | .undefined => true
  | .null => true
  | .bool b => !b
  | .num n => n == 0
  | .str s => s == ""
  | .obj _ => false

/-- The `add`/`replace` traversal of `applyOperation`
(viewport-sync.js:656-669) on a nonempty segment list: walk the path,
creating `{}` for an absent intermediate key, and assign the leaf.  In
strict mode (class body) assigning a property of a primitive throws, and
both the `in` operator and property assignment throw on `null`/`undefined`;
those TypeErrors are the `error` outcome. -/
def setPath : JVal → List String → JVal → Except Unit JVal
  | _, [], _ => .error ()
  | cur, [p], v =>
      match cur with
      | .obj fs => .ok (.obj (fs.set p v))
      | _ => .error ()
  | cur, p :: q :: rest, v =>
      match cur with
      | .obj fs =>
          let child := if fs.hasKey p then fs.getD p else .obj .nil
          match setPath child (q :: rest) v with
          | .ok c => .ok (.obj (fs.set p c))
          | .error e => .error e
      | _ => .error ()

/-- The `remove` traversal of `applyOperation` (viewport-sync.js:670-680) on
a nonempty segment list.  A falsy intermediate makes the source return the
root unchanged, embedded as `ok none`; `ok (some r)` is the root with the
deletion applied; property access on `null`/`undefined` throws. -/
def removePath : JVal → List String → Except Unit (Option JVal)
  | _, [] => .error ()
  | cur, [p] =>
      match cur with
      | .obj fs => .ok (some (.obj (fs.remove p)))
      | .null => .error ()
      | .undefined => .error ()
      | _ => .ok (some cur)
  | cur, p :: q :: rest =>
      match cur with
      | .null => .error ()
      | .undefined => .error ()
      | .obj fs =>
          let child := fs.getD p
          if jsFalsy child then .ok none
          else
            match removePath child (q :: rest) with
            | .ok none => .ok none
            | .ok (some c) => .ok (some (.obj (fs.set p c)))
            | .error e => .error e
      | _ => .ok none

/-- `AevIPProtocol.applyOperation` (viewport-sync.js:652-684).  An empty
segment list means: `add`/`replace` return the operation's value wholesale,
`remove` returns `undefined`. -/
def applyOperation (obj : JVal) (op : Op) : Except Unit JVal :=
  match op with
  | .add path v =>
      match splitPath path with
      | [] => .ok v
      | p :: rest => setPath obj (p :: rest) v
  | .replace path v =>
      match splitPath path with
      | [] => .ok v
      | p :: rest => setPath obj (p :: rest) v
  | .remove path =>
      match splitPath path with
      | [] => .ok .undefined
      | p :: rest =>
          match removePath obj (p :: rest) with
          | .ok none => .ok obj
          | .ok (some r) => .ok r
          | .error e => .error e

/-- The `for (const operation of diff)` replay loop of `applyPatch`
(viewport-sync.js:642-644); a thrown TypeError aborts the loop. -/
def applyOps : JVal → List Op → Except Unit JVal
  | v, [] => .ok v
  | v, op :: rest =>
      match applyOperation v op with
      | .ok v' => applyOps v' rest
      | .error e => .error e

mutual
/-- The deep clone `JSON.parse(JSON.stringify(obj))` of `applyPatch`
(viewport-sync.js:640) on a defined root: `JSON.stringify` drops
`undefined`-valued properties at every depth; everything else survives the
round trip unchanged. -/
def jclone : JVal → JVal
  | .undefined => .undefined
  | .null => .null
  | .bool b => .bool b
  | .num n => .num n
  | .str s => .str s
  | .obj fs => .obj (jcloneF fs)

def jcloneF : JFields → JFields
  | .nil => .nil
  | .cons k v rest =>
      if v = JVal.undefined then jcloneF rest else .cons k (jclone v) (jcloneF rest)
end

/-- A patch as consumed by `applyPatch`: `diff = none` models a missing or
non-array `diff` property.  `compressed` patches are not modeled separately:
`compress`/`decompress` are `JSON.stringify`/`JSON.parse`
(viewport-sync.js:802-812), an exact inverse pair, so the replayed diff is
the same either way. -/
structure DPatch where
  diff : Option (List Op)

/-- `AevIPProtocol.applyPatch` (viewport-sync.js:628-647): reject a patch
whose `diff` is missing or not an array, returning the input itself;
otherwise deep-clone the input and replay the operations in order.
`JSON.stringify(undefined)` is `undefined` and feeding it to `JSON.parse`
throws, hence the `error` on an `undefined` root. -/
def applyPatch (obj : JVal) (p : DPatch) : Except Unit JVal :=
  match p.diff with
  | none => .ok obj
  | some d =>
      if obj = .undefined then .error ()
      else applyOps (jclone obj) d

mutual
/-- Canonical values: what a value that originated from JSON-parsed data
looks like — no `undefined` anywhere, no duplicate keys.  On this domain
`JSON.stringify` is injective, so the structural-equality embedding of the
source's serialized comparison is exact, and the deep clone is the
identity. -/
def canonV : JVal → Bool
  | .undefined => false
  | .null => true
  | .bool _ => true
  | .num _ => true
  | .str _ => true
  | .obj fs => canonF fs

def canonF : JFields → Bool
  | .nil => true
  | .cons k v rest => !(rest.hasKey k) && canonV v && canonF rest
end

mutual
theorem jclone_canon : ∀ v : JVal, canonV v = true → jclone v = v
  | .null, _ => rfl
  | .bool _, _ => rfl
  | .num _, _ => rfl
  | .str _, _ => rfl
  | .obj fs, h => by
      simp only [jclone]
      rw [jcloneF_canon fs (by simpa [canonV] using h)]
  | .undefined, h => by simp [canonV] at h

theorem jcloneF_canon : ∀ fs : JFields, canonF fs = true → jcloneF fs = fs
  | .nil, _ => rfl
  | .cons k v rest, h => by
      simp only [canonF, Bool.and_eq_true] at h
      obtain ⟨⟨_, hv⟩, hr⟩ := h
      have hvne : v ≠ JVal.undefined := by rintro rfl; simp [canonV] at hv
      simp [jcloneF, hvne, jclone_canon v hv, jcloneF_canon rest hr]
end

namespace JFields

theorem getD_set_self : ∀ (fs : JFields) (k : String) (v : JVal),
    (fs.set k v).getD k = v
  | .nil, k, v => by simp [set, getD]
  | .cons k' v' rest, k, v => by
      by_cases h : k' = k
      · simp [set, h, getD]
      · simp [set, h, getD, getD_set_self rest k v]

theorem getD_set_ne : ∀ (fs : JFields) (k k' : String) (v : JVal),
    k' ≠ k → (fs.set k v).getD k' = fs.getD k'
  | .nil, k, k', v, h => by
      have hne : ¬k = k' := fun e => h e.symm
      simp [set, getD, hne]
  | .cons k2 v2 rest, k, k', v, h => by
      have hne : ¬k = k' := fun e => h e.symm
      by_cases h2 : k2 = k
      · simp [set, getD, h2, hne]
      · simp [set, getD, h2, getD_set_ne rest k k' v h]

theorem getD_remove_self : ∀ (fs : JFields) (k : String),
    (fs.remove k).getD k = .undefined
  | .nil, k => by simp [remove, getD]
  | .cons k' v rest, k => by
      by_cases h : k' = k
      · simp [remove, h, getD_remove_self rest k]
      · simp [remove, getD, h, getD_remove_self rest k]

theorem getD_remove_ne : ∀ (fs : JFields) (k k' : String),
    k' ≠ k → (fs.remove k).getD k' = fs.getD k'
  | .nil, k, k', h => by simp [remove]
  | .cons k2 v rest, k, k', h => by
      have hne : ¬k = k' := fun e => h e.symm
      by_cases h2 : k2 = k
      · simp [remove, getD, h2, hne, getD_remove_ne rest k k' h]
      · simp [remove, getD, h2, getD_remove_ne rest k k' h]

theorem getD_eq_undef_of_not_mem_keys : ∀ (fs : JFields) (k : String),
    k ∉ fs.keys → fs.getD k = .undefined
  | .nil, k, _ => rfl
  | .cons k' v rest, k, h => by
      simp only [keys, List.mem_cons, not_or] at h
      have hne : ¬k' = k := fun e => h.1 e.symm
      simp [getD, hne, getD_eq_undef_of_not_mem_keys rest k h.2]

theorem getD_ne_undef_of_hasKey : ∀ (fs : JFields) (k : String),
    canonF fs = true → fs.hasKey k = true → fs.getD k ≠ .undefined
  | .nil, k, _, h => by simp [hasKey] at h
  | .cons k' v rest, k, hc, h => by
      simp only [canonF, Bool.and_eq_true] at hc
      obtain ⟨⟨_, hv⟩, hr⟩ := hc
      by_cases he : k' = k
      · subst he
        simp only [getD, if_pos rfl]
        rintro rfl; simp [canonV] at hv
      · simp only [hasKey, Bool.or_eq_true, decide_eq_true_eq] at h
        rcases h with h | h
        · exact absurd h he
        · simpa [getD, he] using getD_ne_undef_of_hasKey rest k hr h

theorem getD_eq_undef_of_hasKey_false : ∀ (fs : JFields) (k : String),
    fs.hasKey k = false → fs.getD k = .undefined
  | .nil, k, _ => rfl
  | .cons k' v rest, k, h => by
      simp only [hasKey, Bool.or_eq_false_iff, decide_eq_false_iff_not] at h
      simp [getD, h.1, getD_eq_undef_of_hasKey_false rest k h.2]

theorem hasKey_eq_true_of_mem_keys : ∀ (fs : JFields) (k : String),
    k ∈ fs.keys → fs.hasKey k = true
  | .nil, k, h => by simp [keys] at h
  | .cons k' v rest, k, h => by
      simp only [keys, List.mem_cons] at h
      rcases h with h | h
      · simp [hasKey, h.symm]
      · simp [hasKey, hasKey_eq_true_of_mem_keys rest k h]

theorem mem_keys_of_hasKey : ∀ (fs : JFields) (k : String),
    fs.hasKey k = true → k ∈ fs.keys
  | .nil, k, h => by simp [hasKey] at h
  | .cons k' v rest, k, h => by
      simp only [hasKey, Bool.or_eq_true, decide_eq_true_eq] at h
      rcases h with h | h
      · simp [keys, h]
      · simp [keys, mem_keys_of_hasKey rest k h]

end JFields

theorem mem_dedupFirstAux (l : List String) :
    ∀ (seen : List String) (k : String),
      k ∈ dedupFirstAux seen l ↔ k ∈ l ∧ k ∉ seen := by
  induction l with
  | nil => simp [dedupFirstAux]
  | cons c cs ih =>
      intro seen k
      by_cases hc : c ∈ seen
      · rw [dedupFirstAux, if_pos hc, ih]
        constructor
        · rintro ⟨h1, h2⟩; exact ⟨List.mem_cons_of_mem c h1, h2⟩
        · rintro ⟨h1, h2⟩
          rcases List.mem_cons.1 h1 with rfl | h1
          · exact absurd hc h2
          · exact ⟨h1, h2⟩
      · rw [dedupFirstAux, if_neg hc]
        constructor
        · intro h
          rcases List.mem_cons.1 h with rfl | h
          · exact ⟨List.mem_cons_self _ _, hc⟩
          · obtain ⟨h1, h2⟩ := (ih (c :: seen) k).1 h
            exact ⟨List.mem_cons_of_mem _ h1,
              fun hs => h2 (List.mem_cons_of_mem _ hs)⟩
        · rintro ⟨h1, h2⟩
          rcases List.mem_cons.1 h1 with rfl | h1
          · exact List.mem_cons_self _ _
          · by_cases hk : k = c
            · subst hk; exact List.mem_cons_self _ _
            · refine List.mem_cons_of_mem _ ((ih (c :: seen) k).2 ⟨h1, ?_⟩)
              intro hmem
              rcases List.mem_cons.1 hmem with h | h
              · exact hk h
              · exact h2 h

theorem nodup_dedupFirstAux (l : List String) :
    ∀ seen : List String, (dedupFirstAux seen l).Nodup := by
  induction l with
  | nil => intro seen; simp [dedupFirstAux]
  | cons c cs ih =>
      intro seen
      by_cases hc : c ∈ seen
      · rw [dedupFirstAux, if_pos hc]; exact ih seen
      · rw [dedupFirstAux, if_neg hc]
        refine List.nodup_cons.2 ⟨?_, ih (c :: seen)⟩
        intro hmem
        exact ((mem_dedupFirstAux cs (c :: seen) c).1 hmem).2 (List.mem_cons_self c seen)

theorem mem_dedupFirst (l : List String) (k : String) :
    k ∈ dedupFirst l ↔ k ∈ l := by
  rw [dedupFirst, mem_dedupFirstAux]; simp

theorem nodup_dedupFirst (l : List String) : (dedupFirst l).Nodup :=
  nodup_dedupFirstAux l []

/-- A key that survives the path encoding: nonempty and without `'/'`, so
that `('/' + key).split('/').filter(p => p)` recovers exactly the key. -/
def goodKey (k : String) : Bool := decide (k ≠ "") && decide ('/' ∉ k.data)

theorem splitSlash_no_slash : ∀ cs : List Char, '/' ∉ cs → splitSlash cs = [cs]
  | [], _ => rfl
  | c :: cs, h => by
      have hc : ¬c = '/' := fun e => h (by rw [← e]; exact List.mem_cons_self c cs)
      have ih := splitSlash_no_slash cs (fun hm => h (List.mem_cons_of_mem c hm))
      simp [splitSlash, hc, ih]

theorem splitPath_slash_key (k : String) (hk : goodKey k = true) :
    splitPath ("/" ++ k) = [k] := by
  simp only [goodKey, Bool.and_eq_true, decide_eq_true_eq] at hk
  obtain ⟨h1, h2⟩ := hk
  have hdata : ("/" ++ k).data = '/' :: k.data := by
    rw [String.data_append]; rfl
  rw [splitPath, hdata]
  rw [show splitSlash ('/' :: k.data) = [] :: splitSlash k.data from by
    simp [splitSlash]]
  rw [splitSlash_no_slash k.data h2]
  simp [h1]

theorem splitPath_empty : splitPath "" = [] := rfl

/-! ## Per-operation behavior on single-segment paths -/

theorem applyOperation_add_key (fs : JFields) (k : String) (v : JVal)
    (hk : goodKey k = true) :
    applyOperation (.obj fs) (.add ("/" ++ k) v) = .ok (.obj (fs.set k v)) := by
  rw [applyOperation, splitPath_slash_key k hk]
  rfl

theorem applyOperation_replace_key (fs : JFields) (k : String) (v : JVal)
    (hk : goodKey k = true) :
    applyOperation (.obj fs) (.replace ("/" ++ k) v) = .ok (.obj (fs.set k v)) := by
  rw [applyOperation, splitPath_slash_key k hk]
  rfl

theorem applyOperation_remove_key (fs : JFields) (k : String)
    (hk : goodKey k = true) :
    applyOperation (.obj fs) (.remove ("/" ++ k)) = .ok (.obj (fs.remove k)) := by
  rw [applyOperation, splitPath_slash_key k hk]
  rfl

theorem jval_beq_eq (v w : JVal) : (v == w) = decide (v = w) := rfl

/-- Top-level extensional equality: the deep-equality sense in which the
spec's `apply(before, diff(before, after)) == after` is read.  Two objects
are compared by property lookup (JavaScript key insertion order is not
observable through reads); anything else structurally. -/
def topEq (x y : JVal) : Bool :=
  match x, y with
  | .obj f, .obj g => (f.keys ++ g.keys).all (fun k => f.getD k == g.getD k)
  | x, y => x == y

theorem topEq_refl (v : JVal) : topEq v v = true := by
  cases v <;> simp [topEq, jval_beq_eq]

theorem topEq_obj_of_pointwise (f g : JFields) (h : ∀ k, f.getD k = g.getD k) :
    topEq (.obj f) (.obj g) = true := by
  simp only [topEq, List.all_eq_true, jval_beq_eq, decide_eq_true_eq]
  intro k _
  exact h k

theorem diffKey_none (b a : JFields) (k : String)
    (h : diffKey (.obj b) (.obj a) k = none) : b.getD k = a.getD k := by
  simp only [diffKey, safeGet] at h
  split_ifs at h with h1 h2 h3
  exact not_ne_iff.mp h3

theorem applyOp_diffKey_step (b a fs : JFields) (k : String) (op : Op)
    (hk : goodKey k = true)
    (hsome : diffKey (.obj b) (.obj a) k = some op) :
    ∃ fs2, applyOperation (.obj fs) op = .ok (.obj fs2)
      ∧ fs2.getD k = a.getD k
      ∧ ∀ k', k' ≠ k → fs2.getD k' = fs.getD k' := by
  simp only [diffKey, safeGet] at hsome
  split_ifs at hsome with h1 h2 h3
  · cases hsome
    exact ⟨fs.set k (a.getD k), applyOperation_add_key fs k _ hk,
      JFields.getD_set_self fs k _, fun k' hne => JFields.getD_set_ne fs k k' _ hne⟩
  · cases hsome
    refine ⟨fs.remove k, applyOperation_remove_key fs k hk, ?_,
      fun k' hne => JFields.getD_remove_ne fs k k' hne⟩
    rw [JFields.getD_remove_self, h2.2]
  · cases hsome
    exact ⟨fs.set k (a.getD k), applyOperation_replace_key fs k _ hk,
      JFields.getD_set_self fs k _, fun k' hne => JFields.getD_set_ne fs k k' _ hne⟩

/-- Replaying the per-key operations emitted for a deduplicated key list
rewrites exactly those keys to their `after` values and touches nothing
else. -/
theorem applyOps_diff_fold (b a : JFields) :
    ∀ (ks : List String) (fs : JFields),
      ks.Nodup →
      (∀ k ∈ ks, goodKey k = true) →
      (∀ k ∈ ks, fs.getD k = b.getD k) →
      ∃ fs', applyOps (.obj fs) (ks.filterMap (diffKey (.obj b) (.obj a))) =
          .ok (.obj fs')
        ∧ ∀ k, fs'.getD k = if k ∈ ks then a.getD k else fs.getD k := by
  intro ks
  induction ks with
  | nil =>
      intro fs _ _ _
      exact ⟨fs, rfl, by simp⟩
  | cons k ks ih =>
      intro fs hnd hgood horig
      have hk_not : k ∉ ks := (List.nodup_cons.1 hnd).1
      have hnd' := (List.nodup_cons.1 hnd).2
      rw [List.filterMap_cons]
      cases hdk : diffKey (.obj b) (.obj a) k with
      | none =>
          have heq : b.getD k = a.getD k := diffKey_none b a k hdk
          obtain ⟨fs', happ, hpt⟩ := ih fs hnd'
            (fun k' h => hgood k' (List.mem_cons_of_mem _ h))
            (fun k' h => horig k' (List.mem_cons_of_mem _ h))
          refine ⟨fs', happ, ?_⟩
          intro k'
          by_cases hkk : k' = k
          · subst hkk
            rw [hpt k', if_neg hk_not, if_pos (List.mem_cons_self ..),
              horig k' (List.mem_cons_self ..), heq]
          · rw [hpt k']
            by_cases hmem : k' ∈ ks
            · rw [if_pos hmem, if_pos (List.mem_cons_of_mem _ hmem)]
            · rw [if_neg hmem, if_neg (by simp [hkk, hmem])]
      | some op =>
          obtain ⟨fs2, hop, hself, hother⟩ :=
            applyOp_diffKey_step b a fs k op (hgood k (List.mem_cons_self ..)) hdk
          have horig2 : ∀ k' ∈ ks, fs2.getD k' = b.getD k' := by
            intro k' hm
            have hne : k' ≠ k := fun e => hk_not (e ▸ hm)
            rw [hother k' hne, horig k' (List.mem_cons_of_mem _ hm)]
          obtain ⟨fs', happ, hpt⟩ := ih fs2 hnd'
            (fun k' h => hgood k' (List.mem_cons_of_mem _ h)) horig2
          refine ⟨fs', ?_, ?_⟩
          · simp only [applyOps, hop]
            exact happ
          · intro k'
            by_cases hkk : k' = k
            · subst hkk
              rw [hpt k', if_neg hk_not, if_pos (List.mem_cons_self ..), hself]
            · rw [hpt k']
              by_cases hmem : k' ∈ ks
              · rw [if_pos hmem, if_pos (List.mem_cons_of_mem _ hmem)]
              · rw [if_neg hmem, if_neg (by simp [hkk, hmem]), hother k' hkk]

/-- Shape of a plain (non-null) object. -/
def isPlainObj : JVal → Bool
  | .obj _ => true
  | _ => false

/-- A JavaScript primitive other than `null`/`undefined`: a value whose
`typeof` is not `'object'`, so that the diff takes the primitive branch. -/
def isBasePrim : JVal → Bool
  | .bool _ => true
  | .num _ => true
  | .str _ => true
  | _ => false

/-- All top-level keys survive the path encoding. -/
def goodKeysTop (v : JVal) : Bool := (keysOf v).all goodKey

/-- The round-trip of the claim: build the diff patch from
`(before, after)`, apply it to `before`, and compare the result to `after`
extensionally; an exception during apply counts as failure. -/
def roundTrip (before after : JVal) : Bool :=
  match applyPatch before ⟨some (computeDiff before after)⟩ with
  | .ok r => topEq r after
  | .error _ => false

theorem isObjType_eq_false_of_isBasePrim (v : JVal) (h : isBasePrim v = true) :
    isObjType v = false := by
  cases v <;> simp [isBasePrim, isObjType] at h ⊢

theorem canonV_ne_undef (v : JVal) (h : canonV v = true) : v ≠ .undefined := by
  rintro rfl; simp [canonV] at h

/-- Round trip through the primitive branch of `computeDiff`: a single
whole-value `replace` at the empty path. -/
theorem roundTrip_prim_branch (before after : JVal)
    (hb : canonV before = true)
    (hcond : (isObjType before && isObjType after) = false) :
    roundTrip before after = true := by
  have hbne : before ≠ .undefined := canonV_ne_undef before hb
  have hcd : computeDiff before after =
      if before ≠ after then [.replace "" after] else [] := by
    simp [computeDiff, hcond]
  by_cases he : before = after
  · subst he
    have hcd0 : computeDiff before before = [] := by simp [hcd]
    simp [roundTrip, applyPatch, hcd0, hbne, jclone_canon _ hb, applyOps,
      topEq_refl]
  · have hcd1 : computeDiff before after = [.replace "" after] := by
      rw [hcd, if_pos he]
    simp only [roundTrip, applyPatch, hcd1, if_neg hbne]
    simp [applyOps, applyOperation, splitPath_empty, topEq_refl]

/-- Round trip through the object branch of `computeDiff` for two plain
objects with canonical fields and path-safe top-level keys. -/
theorem roundTrip_obj_branch (b a : JFields)
    (hb : canonF b = true)
    (hgb : goodKeysTop (.obj b) = true) (hga : goodKeysTop (.obj a) = true) :
    roundTrip (.obj b) (.obj a) = true := by
  have hcd : computeDiff (.obj b) (.obj a) =
      (dedupFirst (b.keys ++ a.keys)).filterMap (diffKey (.obj b) (.obj a)) := by
    simp [computeDiff, isObjType, keysOf]
  have hgood : ∀ k ∈ dedupFirst (b.keys ++ a.keys), goodKey k = true := by
    intro k hm
    rw [mem_dedupFirst] at hm
    simp only [goodKeysTop, keysOf, List.all_eq_true] at hgb hga
    rcases List.mem_append.1 hm with h | h
    · exact hgb k h
    · exact hga k h
  obtain ⟨fs', happ, hpt⟩ := applyOps_diff_fold b a
    (dedupFirst (b.keys ++ a.keys)) b (nodup_dedupFirst _) hgood
    (fun _ _ => rfl)
  have hpt' : ∀ k, fs'.getD k = a.getD k := by
    intro k
    rw [hpt k]
    by_cases hm : k ∈ dedupFirst (b.keys ++ a.keys)
    · rw [if_pos hm]
    · rw [if_neg hm]
      rw [mem_dedupFirst] at hm
      have hmb : k ∉ b.keys := fun h => hm (List.mem_append.2 (Or.inl h))
      have hma : k ∉ a.keys := fun h => hm (List.mem_append.2 (Or.inr h))
      rw [JFields.getD_eq_undef_of_not_mem_keys b k hmb,
        JFields.getD_eq_undef_of_not_mem_keys a k hma]
  have hbne : (JVal.obj b) ≠ .undefined := by intro h; cases h
  have hclone : jclone (.obj b) = .obj b := jclone_canon _ (by simpa [canonV] using hb)
  simp only [roundTrip, applyPatch, if_neg hbne, hclone, hcd, happ]
  exact topEq_obj_of_pointwise fs' a hpt'

/-- Per-key diff rule in the spec's own vocabulary: key present only in
`after` gives `add`, only in `before` gives `remove`, present in both with
unequal (serialized) values gives `replace`. -/
def specDiffKey (b a : JFields) (k : String) : Option Op :=
  if a.hasKey k ∧ ¬b.hasKey k then some (.add ("/" ++ k) (a.getD k))
  else if b.hasKey k ∧ ¬a.hasKey k then some (.remove ("/" ++ k))
  else if b.hasKey k ∧ a.hasKey k ∧ b.getD k ≠ a.getD k then
    some (.replace ("/" ++ k) (a.getD k))
  else none

theorem diffKey_eq_specDiffKey (b a : JFields) (k : String)
    (hcb : canonF b = true) (hca : canonF a = true) :
    diffKey (.obj b) (.obj a) k = specDiffKey b a k := by
  simp only [diffKey, safeGet, specDiffKey]
  by_cases hb : b.hasKey k = true
  · have hbv : b.getD k ≠ .undefined := JFields.getD_ne_undef_of_hasKey b k hcb hb
    by_cases ha : a.hasKey k = true
    · have hav : a.getD k ≠ .undefined := JFields.getD_ne_undef_of_hasKey a k hca ha
      simp [hb, ha, hbv, hav]
    · have hav : a.getD k = .undefined :=
        JFields.getD_eq_undef_of_hasKey_false a k (by simpa using ha)
      simp [hb, ha, hbv, hav]
  · have hbv : b.getD k = .undefined :=
      JFields.getD_eq_undef_of_hasKey_false b k (by simpa using hb)
    by_cases ha : a.hasKey k = true
    · have hav : a.getD k ≠ .undefined := JFields.getD_ne_undef_of_hasKey a k hca ha
      simp [hb, ha, hbv, hav]
    · have hav : a.getD k = .undefined :=
        JFields.getD_eq_undef_of_hasKey_false a k (by simpa using ha)
      simp [hb, ha, hbv, hav]

/-! ## Sanity checks for the diff engine on the spec's worked example -/

def exBefore : JVal := .obj (.cons "a" (.num 1) (.cons "b" (.num 2) .nil))
def exAfter : JVal :=
  .obj (.cons "a" (.num 1) (.cons "b" (.num 3) (.cons "c" (.num 4) .nil)))

example :
    computeDiff exBefore exAfter =
      [.replace "/b" (.num 3), .add "/c" (.num 4)] := by decide

example :
    applyPatch exBefore ⟨some (computeDiff exBefore exAfter)⟩ = .ok exAfter := by
  decide

/-! ## Claim C1: diff/apply round trip -/

/-- C1 (counterexample).  The round trip fails inside the claimed domain of
one-level keyed structures and primitives:
(1) `before = {a:1}`, `after = null` — `typeof null === 'object'` sends the
    pair into the object branch, which emits `remove /a`; applying it to
    `{a:1}` yields `{}`, not `null`;
(2) `before = {}`, `after = {"a/b":1}` — the key containing `'/'` is split
    by `applyOperation` into two segments, so applying the diff builds the
    nested `{a:{b:1}}` instead of the one-level `{"a/b":1}`;
(3) `before = {}`, `after = {"":1}` — the empty key produces path `"/"`,
    whose segment list is empty, so the `add` replaces the whole value by
    `1` instead of adding the key. -/
theorem C1_roundTrip_counterexample :
    roundTrip (.obj (.cons "a" (.num 1) .nil)) .null = false
    ∧ roundTrip (.obj .nil) (.obj (.cons "a/b" (.num 1) .nil)) = false
    ∧ roundTrip (.obj .nil) (.obj (.cons "" (.num 1) .nil)) = false := by
  decide

/-- C1 (amended): `applyPatch(before, {diff: computeDiff(before, after)})`
returns `after` (up to property-lookup equality) for canonical values,
provided either both sides are plain objects whose top-level keys are
nonempty and free of `'/'`, or at least one side is a base primitive
(boolean, number or string) — the exclusions of `null`-against-object pairs
and of empty or `'/'`-containing keys being exactly what the
counterexamples force. -/
theorem C1_roundTrip_amended (before after : JVal)
    (hb : canonV before = true) (ha : canonV after = true)
    (hshape : ((isPlainObj before && isPlainObj after
        && goodKeysTop before && goodKeysTop after)
      || isBasePrim before || isBasePrim after) = true) :
    roundTrip before after = true := by
  simp only [Bool.or_eq_true, Bool.and_eq_true] at hshape
  rcases hshape with (⟨⟨⟨hob, hoa⟩, hgb⟩, hga⟩ | hprim) | hprim
  · obtain ⟨b, rfl⟩ : ∃ fs, before = .obj fs := by
      cases before
      case obj fs => exact ⟨fs, rfl⟩
      all_goals simp [isPlainObj] at hob
    obtain ⟨a, rfl⟩ : ∃ fs, after = .obj fs := by
      cases after
      case obj fs => exact ⟨fs, rfl⟩
      all_goals simp [isPlainObj] at hoa
    exact roundTrip_obj_branch b a (by simpa [canonV] using hb) hgb hga
  · exact roundTrip_prim_branch before after hb
      (by rw [isObjType_eq_false_of_isBasePrim before hprim, Bool.false_and])
  · exact roundTrip_prim_branch before after hb
      (by rw [isObjType_eq_false_of_isBasePrim after hprim, Bool.and_false])

/-- C1 (witness): the amended round trip evaluated on the spec's worked
example pair. -/
theorem C1_roundTrip_witness :
    canonV exBefore = true ∧ canonV exAfter = true
    ∧ roundTrip exBefore exAfter = true :=
  ⟨by decide, by decide,
    C1_roundTrip_amended exBefore exAfter (by decide) (by decide) (by decide)⟩

/-! ## Claim C9: diff computation rule, emission order, worked example -/

/-- C9: `computeDiff` on two plain keyed structures emits one operation per
key of the before/after key union, in the union's first-occurrence
iteration order, following the add/remove/replace rule stated by the spec
(`specDiffKey`); on the spec's worked example it produces exactly
`[replace /b 3, add /c 4]`, and applying that diff to `{a:1,b:2}` yields
`{a:1,b:3,c:4}`. -/
theorem C9_computeDiff_rule :
    (computeDiff exBefore exAfter =
      [.replace "/b" (.num 3), .add "/c" (.num 4)])
    ∧ (applyPatch exBefore ⟨some (computeDiff exBefore exAfter)⟩ = .ok exAfter)
    ∧ ∀ b a : JFields, canonF b = true → canonF a = true →
        computeDiff (.obj b) (.obj a) =
          (dedupFirst (b.keys ++ a.keys)).filterMap (specDiffKey b a) := by
  refine ⟨by decide, by decide, ?_⟩
  intro b a hcb hca
  have hfun : diffKey (.obj b) (.obj a) = specDiffKey b a :=
    funext fun k => diffKey_eq_specDiffKey b a k hcb hca
  simp [computeDiff, isObjType, keysOf, hfun]

/-- C9 (witness): the general per-key rule instantiated on the worked
example's field lists. -/
theorem C9_computeDiff_rule_witness :
    computeDiff exBefore exAfter =
      (dedupFirst ((JFields.cons "a" (.num 1) (.cons "b" (.num 2) .nil)).keys
          ++ (JFields.cons "a" (.num 1)
              (.cons "b" (.num 3) (.cons "c" (.num 4) .nil))).keys)).filterMap
        (specDiffKey (.cons "a" (.num 1) (.cons "b" (.num 2) .nil))
          (.cons "a" (.num 1) (.cons "b" (.num 3) (.cons "c" (.num 4) .nil)))) :=
  C9_computeDiff_rule.2.2 _ _ (by decide) (by decide)

/-! ## AevIPProtocol: outbound queue, retry/backoff, pause/resume

The protocol state (`AevIPProtocol.state`, viewport-sync.js:857-864) is
embedded with the fields the queueing claims touch, plus three observation
logs: `sends` records every call of the transport `sendPatch` (by patch
id), `errors` every invocation of the `onError` handler, and `cycleStarts`
every entry into a fresh retry cycle, i.e. every call
`sendPatchWithRetry(patch, 0)`.  Patches are identified by a `Nat` id.

The transport is a function `tr : Nat → Bool` giving the outcome of the
n-th transport call overall (indexed by the current length of the send
log): `true` — the returned promise resolves, `false` — it rejects.  The
source `await`s every send and every backoff sleep sequentially, so a
retry cycle runs to completion before the next queued patch is attempted;
the sleeps themselves change none of the modeled state. -/

namespace AevIP

structure PState where
  patchQueue : List Nat
  paused : Bool
  reconnectAttempts : Nat
  sends : List Nat
  errors : List Nat
  cycleStarts : List Nat
  deriving DecidableEq

/-- The initial protocol state (empty queue, not paused). -/
def pInit : PState := ⟨[], false, 0, [], [], []⟩

/-- Recursive core of `AevIPProtocol.sendPatchWithRetry`
(viewport-sync.js:704-724).  The structural counter is
`remaining = maxRetries - attemptNumber`, the number of retries still
allowed (`attemptNumber < maxRetries` in the source is exactly
`remaining > 0`).  Resolving resets `reconnectAttempts`; exhaustion
invokes `onError` once and propagates the rejection (`false`). -/
def sendRetryAux (tr : Nat → Bool) (p : Nat) : Nat → PState → PState × Bool
  | 0, s =>
      let ok := tr s.sends.length
      let s1 := { s with sends := s.sends ++ [p] }
      if ok then ({ s1 with reconnectAttempts := 0 }, true)
      else ({ s1 with errors := s1.errors ++ [p] }, false)
  | r + 1, s =>
      let ok := tr s.sends.length
      let s1 := { s with sends := s.sends ++ [p] }
      if ok then ({ s1 with reconnectAttempts := 0 }, true)
      else sendRetryAux tr p r s1

/-- `sendPatchWithRetry(patch)` entered at attempt 0; the entry is recorded
in the `cycleStarts` log. -/
def sendPatchWithRetry (tr : Nat → Bool) (maxRetries p : Nat) (s : PState) :
    PState × Bool :=
  sendRetryAux tr p maxRetries { s with cycleStarts := s.cycleStarts ++ [p] }

/-- The queue update of `queuePatch`: `push`, then `shift` (drop the
oldest) when the length exceeds `patchQueueSize`. -/
def pushEvict (patchQueueSize p : Nat) (q : List Nat) : List Nat :=
  let q1 := q ++ [p]
  if patchQueueSize < q1.length then q1.tail else q1

/-- `AevIPProtocol.queuePatch` (viewport-sync.js:689-699): push the patch,
evict the oldest on overflow (`shift`), then immediately attempt
`sendPatchWithRetry` — the `paused` flag is not consulted anywhere on this
path. -/
def queuePatch (tr : Nat → Bool) (maxRetries patchQueueSize p : Nat)
    (s : PState) : PState × Bool :=
  sendPatchWithRetry tr maxRetries p
    { s with patchQueue := pushEvict patchQueueSize p s.patchQueue }

/-- `AevIPProtocol.pause` (viewport-sync.js:771-774). -/
def pause (s : PState) : PState := { s with paused := true }

/-- The `for (const patch of queue) { await this.sendPatchWithRetry(patch) }`
loop of `flushQueue` (viewport-sync.js:794-796).  An exhausted retry cycle
rejects; the `await` rethrows, aborting the loop — the remaining snapshot
patches are not attempted. -/
def flushLoop (tr : Nat → Bool) (maxRetries : Nat) :
    List Nat → PState → PState × Bool
  | [], s => (s, true)
  | p :: ps, s =>
      match sendPatchWithRetry tr maxRetries p s with
      | (s1, true) => flushLoop tr maxRetries ps s1
      | (s1, false) => (s1, false)

/-- `AevIPProtocol.flushQueue` (viewport-sync.js:790-797): snapshot the
queue, clear it, then resend each snapshot patch. -/
def flushQueue (tr : Nat → Bool) (maxRetries : Nat) (s : PState) :
    PState × Bool :=
  flushLoop tr maxRetries s.patchQueue { s with patchQueue := [] }

/-- `AevIPProtocol.resume` (viewport-sync.js:779-785): clear `paused`, then
flush. -/
def resume (tr : Nat → Bool) (maxRetries : Nat) (s : PState) :
    PState × Bool :=
  flushQueue tr maxRetries { s with paused := false }

theorem sendRetryAux_frame (tr : Nat → Bool) (p : Nat) :
    ∀ (r : Nat) (s : PState),
      (sendRetryAux tr p r s).1.patchQueue = s.patchQueue
      ∧ (sendRetryAux tr p r s).1.paused = s.paused
      ∧ (sendRetryAux tr p r s).1.cycleStarts = s.cycleStarts := by
  intro r
  induction r with
  | zero =>
      intro s
      cases htr : tr s.sends.length <;> simp [sendRetryAux, htr]
  | succ r ih =>
      intro s
      cases htr : tr s.sends.length <;> simp [sendRetryAux, htr, ih]

/-- With a transport that rejects every call, a retry cycle with `r`
retries remaining performs exactly `r + 1` sends, records one `onError`,
and rejects. -/
theorem sendRetryAux_allFail (tr : Nat → Bool) (htr : ∀ n, tr n = false)
    (p : Nat) : ∀ (r : Nat) (s : PState),
      (sendRetryAux tr p r s).1.sends = s.sends ++ List.replicate (r + 1) p
      ∧ (sendRetryAux tr p r s).1.errors = s.errors ++ [p]
      ∧ (sendRetryAux tr p r s).2 = false := by
  intro r
  induction r with
  | zero =>
      intro s
      simp [sendRetryAux, htr s.sends.length, List.replicate]
  | succ r ih =>
      intro s
      have h1 := (ih { s with sends := s.sends ++ [p] }).1
      have h2 := (ih { s with sends := s.sends ++ [p] }).2.1
      have h3 := (ih { s with sends := s.sends ++ [p] }).2.2
      simp only [sendRetryAux, htr s.sends.length, Bool.false_eq_true,
        if_false]
      refine ⟨?_, h2, h3⟩
      rw [h1]
      simp [List.replicate_succ]

theorem sendPatchWithRetry_frame (tr : Nat → Bool) (mr p : Nat) (s : PState) :
    (sendPatchWithRetry tr mr p s).1.patchQueue = s.patchQueue
    ∧ (sendPatchWithRetry tr mr p s).1.paused = s.paused
    ∧ (sendPatchWithRetry tr mr p s).1.cycleStarts = s.cycleStarts ++ [p] := by
  unfold sendPatchWithRetry
  exact sendRetryAux_frame tr p mr { s with cycleStarts := s.cycleStarts ++ [p] }

theorem mem_pushEvict (patchQueueSize p : Nat) (q : List Nat)
    (hq : 1 ≤ patchQueueSize) : p ∈ pushEvict patchQueueSize p q := by
  unfold pushEvict
  by_cases hov : patchQueueSize < (q ++ [p]).length
  · rw [if_pos hov]
    cases q with
    | nil =>
        simp only [List.nil_append, List.length_cons, List.length_nil] at hov
        omega
    | cons x rest =>
        simp [List.cons_append]
  · rw [if_neg hov]
    simp

/-! ## Claim C2: pause is supposed to block sending -/

/-- C2 (code exhibit).  `pause()` sets `paused = true`, but `queuePatch`
never consults the flag: a patch queued while paused is sent immediately —
the transport log records the send with the protocol still paused.  The
`paused` flag is written by `pause`/`resume` and read nowhere in the
repository. -/
theorem C2_send_while_paused :
    (queuePatch (fun _ => true) 4 1000 7 (pause pInit)).1.paused = true
    ∧ (queuePatch (fun _ => true) 4 1000 7 (pause pInit)).1.sends = [7] := by
  decide

/-! ## Claim C3: retry bound -/

/-- C3: with a transport that rejects every call, a retry cycle performs
exactly `maxRetries + 1` transport sends (the source default is
`maxRetries = 4`, hence 5 attempts), invokes the `onError` handler exactly
once, and propagates the rejection to the caller. -/
theorem C3_retry_bound (tr : Nat → Bool) (htr : ∀ n, tr n = false)
    (maxRetries p : Nat) (s : PState) :
    (sendPatchWithRetry tr maxRetries p s).1.sends =
        s.sends ++ List.replicate (maxRetries + 1) p
    ∧ (sendPatchWithRetry tr maxRetries p s).1.errors = s.errors ++ [p]
    ∧ (sendPatchWithRetry tr maxRetries p s).2 = false := by
  unfold sendPatchWithRetry
  exact sendRetryAux_allFail tr htr p maxRetries
    { s with cycleStarts := s.cycleStarts ++ [p] }

/-- C3 (witness): the default configuration `maxRetries = 4` makes exactly
5 attempts before the single `onError` and the propagated failure. -/
theorem C3_retry_bound_witness :
    (sendPatchWithRetry (fun _ => false) 4 7 pInit).1.sends =
        List.replicate 5 7
    ∧ (sendPatchWithRetry (fun _ => false) 4 7 pInit).1.errors = [7]
    ∧ (sendPatchWithRetry (fun _ => false) 4 7 pInit).2 = false := by
  have h := C3_retry_bound (fun _ => false) (fun _ => rfl) 4 7 pInit
  simpa [pInit] using h

/-! ## Claim C4: queue removal on retry exhaustion -/

/-- C4 (counterexample).  A patch whose retry cycle exhausts `maxRetries`
(the `onError` log shows the exhaustion) is still in `patchQueue`
afterwards: nothing on the failure path removes it. -/
theorem C4_stays_queued_counterexample :
    (queuePatch (fun _ => false) 4 1000 7 pInit).1.errors = [7]
    ∧ (queuePatch (fun _ => false) 4 1000 7 pInit).1.patchQueue = [7] := by
  decide

/-- C4 (amended): after a fully failed retry cycle the enqueued patch
remains in the active `patchQueue` (for any queue bound of at least 1 —
the source default is 1000); it leaves the queue only through later
overflow eviction or a `flushQueue`.  The exhaustion itself is visible in
the `onError` log and the propagated rejection. -/
theorem C4_stays_queued_amended (tr : Nat → Bool) (htr : ∀ n, tr n = false)
    (maxRetries patchQueueSize p : Nat) (hq : 1 ≤ patchQueueSize)
    (s : PState) :
    p ∈ (queuePatch tr maxRetries patchQueueSize p s).1.patchQueue
    ∧ (queuePatch tr maxRetries patchQueueSize p s).1.errors = s.errors ++ [p]
    ∧ (queuePatch tr maxRetries patchQueueSize p s).2 = false := by
  unfold queuePatch
  refine ⟨?_, ?_, ?_⟩
  · rw [(sendPatchWithRetry_frame tr maxRetries p _).1]
    exact mem_pushEvict patchQueueSize p s.patchQueue hq
  · exact (C3_retry_bound tr htr maxRetries p _).2.1
  · exact (C3_retry_bound tr htr maxRetries p _).2.2

/-- C4 (witness): the amended statement at the default configuration. -/
theorem C4_stays_queued_witness :
    7 ∈ (queuePatch (fun _ => false) 4 1000 7 pInit).1.patchQueue
    ∧ (queuePatch (fun _ => false) 4 1000 7 pInit).1.errors = [7]
    ∧ (queuePatch (fun _ => false) 4 1000 7 pInit).2 = false := by
  have h := C4_stays_queued_amended (fun _ => false) (fun _ => rfl) 4 1000 7
    (by decide) pInit
  simpa [pInit] using h

/-! ## Claim C5: resume flush -/

theorem flushLoop_spec (tr : Nat → Bool) (mr : Nat) :
    ∀ (ps : List Nat) (s : PState),
      (flushLoop tr mr ps s).1.patchQueue = s.patchQueue
      ∧ (flushLoop tr mr ps s).1.paused = s.paused
      ∧ ∃ k ≤ ps.length,
          (flushLoop tr mr ps s).1.cycleStarts = s.cycleStarts ++ ps.take k
          ∧ ((flushLoop tr mr ps s).2 = true → k = ps.length)
          ∧ ((flushLoop tr mr ps s).2 = false → 1 ≤ k)
  | [], s => by
      refine ⟨rfl, rfl, 0, Nat.le_refl 0, by simp [flushLoop], ?_, ?_⟩
      · intro _; rfl
      · intro h; exact absurd h (by simp [flushLoop])
  | p :: ps, s => by
      rcases hsend : sendPatchWithRetry tr mr p s with ⟨s1, ok⟩
      have hframe := sendPatchWithRetry_frame tr mr p s
      rw [hsend] at hframe
      cases ok with
      | true =>
          have hrec := flushLoop_spec tr mr ps s1
          obtain ⟨k, hk, hcs, himp1, himp2⟩ := hrec.2.2
          refine ⟨?_, ?_, k + 1, by simpa using Nat.succ_le_succ hk, ?_, ?_, ?_⟩
          · simp only [flushLoop, hsend]
            rw [hrec.1, hframe.1]
          · simp only [flushLoop, hsend]
            rw [hrec.2.1, hframe.2.1]
          · simp only [flushLoop, hsend]
            rw [hcs, hframe.2.2, List.take_succ_cons, List.append_assoc]
            rfl
          · simp only [flushLoop, hsend]
            intro h
            rw [List.length_cons, himp1 h]
          · intro _
            exact Nat.succ_le_succ (Nat.zero_le k)
      | false =>
          refine ⟨?_, ?_, 1, Nat.succ_le_succ (Nat.zero_le _), ?_, ?_, ?_⟩
          · simp only [flushLoop, hsend]
            exact hframe.1
          · simp only [flushLoop, hsend]
            exact hframe.2.1
          · simp only [flushLoop, hsend]
            rw [List.take_succ_cons, List.take_zero]
            exact hframe.2.2
          · simp only [flushLoop, hsend]
            intro h
            exact absurd h (by simp)
          · intro _
            exact Nat.le_refl 1

/-- C5 (counterexample).  `resume` on a queue `[1, 2]` over a transport
that rejects everything: patch 1 exhausts its retries (`onError` fires,
the rejection rethrows out of the flush loop) and patch 2 — in
`patchQueue` at the moment of `resume()` — is never attempted: the cycle
log records only patch 1, refuting "every patch that was in patchQueue at
the moment of resume() is attempted exactly once". -/
theorem C5_flush_abort_counterexample :
    (resume (fun _ => false) 4
        { pInit with patchQueue := [1, 2], paused := true }).1.cycleStarts = [1]
    ∧ (resume (fun _ => false) 4
        { pInit with patchQueue := [1, 2], paused := true }).1.sends =
        List.replicate 5 1
    ∧ (resume (fun _ => false) 4
        { pInit with patchQueue := [1, 2], paused := true }).1.errors = [1]
    ∧ (resume (fun _ => false) 4
        { pInit with patchQueue := [1, 2], paused := true }).1.patchQueue = [] := by
  decide

/-- C5 (amended): `resume()` clears the paused flag and empties
`patchQueue` first; the flush loop then starts exactly one retry cycle per
snapshot patch, in order, for a prefix of the snapshot — the whole
snapshot when every cycle resolves, and otherwise up to and including the
first patch whose cycle exhausts its retries, after which the rethrown
rejection aborts the loop and the remaining snapshot patches are not
attempted.  No patch is put back into the queue by the flush loop. -/
theorem C5_resume_flush_amended (tr : Nat → Bool) (mr : Nat) (s : PState) :
    (resume tr mr s).1.paused = false
    ∧ (resume tr mr s).1.patchQueue = []
    ∧ ∃ k ≤ s.patchQueue.length,
        (resume tr mr s).1.cycleStarts = s.cycleStarts ++ s.patchQueue.take k
        ∧ ((resume tr mr s).2 = true → k = s.patchQueue.length)
        ∧ ((resume tr mr s).2 = false → 1 ≤ k) := by
  unfold resume flushQueue
  have h := flushLoop_spec tr mr s.patchQueue
    { s with paused := false, patchQueue := [] }
  exact ⟨h.2.1, h.1, h.2.2⟩

end AevIP

/-! ## ViewportSync: node registry, visibility, deferred delivery

`ViewportSync.state` (viewport-sync.js:23-34) keeps `observedElements`
(a `Map` from element to metadata), `visibleElements` (a `Set`),
`pendingUpdates` (a `Map` from content id to patch — the Deferred Update
Table) and counters.  JavaScript `Map`/`Set` preserve insertion order and
hold each key once; they are embedded as association lists/lists kept
duplicate-free by the operations, with the JS semantics: `set` on an
existing key keeps its position, a new key is appended; `delete` removes
the key; `add` on a present member is a no-op.

An element is embedded by its identity plus the two sync attributes the
code reads; a patch by its id plus `metadata.contentId`.  The intersection
ratio and bounding rectangle of an `IntersectionObserverEntry` are floats
and a DOM rectangle in the source; the code only stores them, so they are
embedded as opaque numbers.  `applyPatchToElement`
(viewport-sync.js:351-385) manipulates the DOM and emits events; the
claims concern which (element, patch) deliveries happen, so it is embedded
as appending to a delivery log. -/

namespace ViewportSync

/-- Association-list model of a JavaScript `Map`: first (unique) match. -/
def mget {α β : Type} [DecidableEq α] : List (α × β) → α → Option β
  | [], _ => none
  | (k', v) :: rest, k => if k' = k then some v else mget rest k

def mhas {α β : Type} [DecidableEq α] (m : List (α × β)) (k : α) : Bool :=
  (mget m k).isSome

/-- `Map.set`: an existing key keeps its position, a new key is appended. -/
def mset {α β : Type} [DecidableEq α] : List (α × β) → α → β → List (α × β)
  | [], k, v => [(k, v)]
  | (k', v') :: rest, k, v =>
      if k' = k then (k, v) :: rest else (k', v') :: mset rest k v

/-- `Map.delete` (the key is unique in a `Map`). -/
def mdel {α β : Type} [DecidableEq α] (m : List (α × β)) (k : α) :
    List (α × β) :=
  m.filter (fun kv => kv.1 ≠ k)

/-- `Set.add`: no-op on a present member, else appended. -/
def sadd {α : Type} [DecidableEq α] (l : List α) (x : α) : List α :=
  if x ∈ l then l else l ++ [x]

/-- `Set.delete`. -/
def sdel {α : Type} [DecidableEq α] (l : List α) (x : α) : List α :=
  l.filter (fun y => y ≠ x)

/-- A sync-tagged DOM element: its identity and the attributes the code
reads (`data-aevip-id`, `data-aevip-priority`). -/
structure Elem where
  eid : Nat
  aevipId : Option String
  priorityAttr : Option String
  deriving DecidableEq

/-- Target metadata.  Plain JavaScript objects acquire fields dynamically
(`observedElements.get(element) || {}` can produce a metadata object with
any subset), so every field is optional.  `observedAt` is `Date.now()`,
opaque to every claim, fixed at `0`; ratio and rectangle are opaque
numbers. -/
structure Meta where
  contentId : Option String := none
  priority : Option String := none
  observedAt : Option Nat := none
  isVisible : Option Bool := none
  intersectionRatio : Option Nat := none
  boundingRect : Option Nat := none
  deriving DecidableEq

/-- An inbound patch as `handlePatch` sees it: its id and
`metadata.contentId`. -/
structure VPatch where
  pid : Nat
  contentId : Option String
  deriving DecidableEq

structure Stats where
  totalObserved : Nat
  currentlyVisible : Nat
  updatesApplied : Nat
  updatesDeferred : Nat
  deriving DecidableEq

structure VState where
  observedElements : List (Elem × Meta)
  visibleElements : List Elem
  pendingUpdates : List (String × VPatch)
  stats : Stats
  appliedLog : List (Nat × Nat)
  deriving DecidableEq

/-- The empty initial state (`ViewportSync.state`). -/
def vInit : VState := ⟨[], [], [], ⟨0, 0, 0, 0⟩, []⟩

/-- The fields of an `IntersectionObserverEntry` the handler reads. -/
structure IEntry where
  target : Elem
  isIntersecting : Bool
  intersectionRatio : Nat
  boundingRect : Nat
  deriving DecidableEq

/-- `ViewportSync.applyPatchToElement` (viewport-sync.js:351-385), embedded
as its delivery effect: the (element, patch) pair is logged.  The DOM
content read/apply/write and the emitted events happen per call and do not
feed back into the modeled state. -/
def applyPatchToElement (element : Elem) (patch : VPatch) (s : VState) :
    VState :=
  { s with appliedLog := s.appliedLog ++ [(element.eid, patch.pid)] }

/-- `ViewportSync.applyPendingUpdate` (viewport-sync.js:328-347): apply the
deferred patch for `contentId` to this element, then drop the deferred
entry unless some other registered element with that `contentId` is still
invisible; finally count the application. -/
def applyPendingUpdate (element : Elem) (contentId : String) (s : VState) :
    VState :=
  match mget s.pendingUpdates contentId with
  | none => s
  | some patch =>
      let s1 := applyPatchToElement element patch s
      let otherElements :=
        (s1.observedElements.filter
          (fun em => em.2.contentId = some contentId ∧ em.1 ≠ element)).map
          (fun em => em.1)
      let stillHasInvisible :=
        otherElements.any (fun el => !(s1.visibleElements.contains el))
      let s2 :=
        if stillHasInvisible then s1
        else { s1 with pendingUpdates := mdel s1.pendingUpdates contentId }
      { s2 with stats :=
          { s2.stats with updatesApplied := s2.stats.updatesApplied + 1 } }

/-- The metadata update of `handleIntersection` (viewport-sync.js:138-141):
take the recorded metadata — `|| {}` when the element is unknown — and
overwrite ratio, visibility and rectangle from the entry. -/
def intersectMeta (entry : IEntry) (s : VState) : Meta :=
  { (mget s.observedElements entry.target).getD {} with
      intersectionRatio := some entry.intersectionRatio,
      isVisible := some entry.isIntersecting,
      boundingRect := some entry.boundingRect }

/-- `observedElements.set(element, metadata)` (viewport-sync.js:143):
note that this re-inserts the element even when it is not currently
observed. -/
def intersectRecord (entry : IEntry) (s : VState) : VState :=
  { s with
      observedElements :=
        mset s.observedElements entry.target (intersectMeta entry s) }

/-- The `entry.isIntersecting` branch of `handleIntersection`
(viewport-sync.js:145-159): add to the visible set, refresh the counter,
and apply a deferred update for this content id if one is pending. -/
def becomeVisible (entry : IEntry) (contentId : String) (s : VState) :
    VState :=
  let s2 := { s with visibleElements := sadd s.visibleElements entry.target }
  let s3 := { s2 with stats :=
    { s2.stats with currentlyVisible := s2.visibleElements.length } }
  if mhas s3.pendingUpdates contentId then
    applyPendingUpdate entry.target contentId s3
  else s3

/-- The non-intersecting branch of `handleIntersection`
(viewport-sync.js:160-168). -/
def becomeHidden (entry : IEntry) (s : VState) : VState :=
  let s2 := { s with visibleElements := sdel s.visibleElements entry.target }
  { s2 with stats :=
    { s2.stats with currentlyVisible := s2.visibleElements.length } }

/-- `ViewportSync.handleIntersection` (viewport-sync.js:133-169): bail out
without a `data-aevip-id`; update the target's metadata (unconditionally
re-`set` into `observedElements`); then classify visible/hidden. -/
def handleIntersection (entry : IEntry) (s : VState) : VState :=
  match entry.target.aevipId with
  | none => s
  | some contentId =>
      let s1 := intersectRecord entry s
      if entry.isIntersecting then becomeVisible entry contentId s1
      else becomeHidden entry s1

/-- `ViewportSync.handlePatch` (viewport-sync.js:288-323): route an inbound
patch — no content id: drop; no registered elements for the id: defer;
otherwise apply to the visible elements now, and defer (overwriting) if any
registered element with the id is invisible. -/
def handlePatch (patch : VPatch) (s : VState) : VState :=
  match patch.contentId with
  | none => s
  | some contentId =>
      let elements :=
        (s.observedElements.filter
          (fun em => em.2.contentId = some contentId)).map (fun em => em.1)
      if elements.isEmpty then
        { s with
            pendingUpdates := mset s.pendingUpdates contentId patch,
            stats := { s.stats with
              updatesDeferred := s.stats.updatesDeferred + 1 } }
      else
        let visibleEls := elements.filter (fun el => s.visibleElements.contains el)
        let invisibleEls :=
          elements.filter (fun el => !(s.visibleElements.contains el))
        let s1 := visibleEls.foldl
          (fun st el =>
            let st1 := applyPatchToElement el patch st
            { st1 with stats := { st1.stats with
                updatesApplied := st1.stats.updatesApplied + 1 } }) s
        if invisibleEls.isEmpty then s1
        else
          { s1 with
              pendingUpdates := mset s1.pendingUpdates contentId patch,
              stats := { s1.stats with
                updatesDeferred :=
                  s1.stats.updatesDeferred + invisibleEls.length } }

/-- `ViewportSync.observeElement` (viewport-sync.js:236-265): idempotent
registration; reads the sync attributes, records fresh metadata, counts.
`observer.observe(element)` and the emitted event are host-side. -/
def observeElement (element : Elem) (s : VState) : VState :=
  if mhas s.observedElements element then s
  else
    let metadata : Meta :=
      { contentId := element.aevipId,
        priority := some (element.priorityAttr.getD ("normal")),
        observedAt := some 0,
        isVisible := some false,
        intersectionRatio := some 0 }
    { s with
        observedElements := mset s.observedElements element metadata,
        stats := { s.stats with
          totalObserved := s.stats.totalObserved + 1 } }

/-- `ViewportSync.unobserveElement` (viewport-sync.js:270-283): a no-op on
unknown elements; otherwise removes the element from the registry and from
the visible set. -/
def unobserveElement (element : Elem) (s : VState) : VState :=
  if mhas s.observedElements element then
    { s with
        observedElements := mdel s.observedElements element,
        visibleElements := sdel s.visibleElements element }
  else s

/-- One registry/visibility event: registration, removal, or a delivered
intersection entry. -/
inductive VEvent where
  | observe (e : Elem)
  | unobserve (e : Elem)
  | intersect (entry : IEntry)
  deriving DecidableEq

def step (s : VState) : VEvent → VState
  | .observe e => observeElement e s
  | .unobserve e => unobserveElement e s
  | .intersect en => handleIntersection en s

def run (s : VState) (evs : List VEvent) : VState := evs.foldl step s

/-- Guard of a legal delivery: an intersection entry may only be delivered
while its target is currently registered. -/
def evGuard (s : VState) : VEvent → Bool
  | .intersect en => mhas s.observedElements en.target
  | _ => true

/-- Event sequences in which every intersection entry is delivered while
its target is currently registered.  The source's debounced
IntersectionObserver callback can also deliver an entry *after*
`unobserveElement` (the 150 ms debounce closure retains the entries and
`unobserve` does not cancel it), which is exactly the situation the
counterexample exploits; `legalFrom` carves out the sequences without such
late deliveries. -/
def legalFrom : VState → List VEvent → Bool
  | _, [] => true
  | s, ev :: evs => evGuard s ev && legalFrom (step s ev) evs

/-- Membership update of one event in the spec's reading: `observeElement`
begins membership, `unobserveElement` ends it, intersection transitions do
not affect it. -/
def refUpdate (e : Elem) (m : Bool) : VEvent → Bool
  | .observe e' => if e' = e then true else m
  | .unobserve e' => if e' = e then false else m
  | .intersect _ => m

/-- Reference registry membership as the spec words it: an element is a
member from its `observeElement` to its `unobserveElement`. -/
def refMember (e : Elem) : Bool → List VEvent → Bool
  | m, [] => m
  | m, ev :: evs => refMember e (refUpdate e m ev) evs

/-! ### Map and set lemmas -/

theorem mget_mset_self {α β : Type} [DecidableEq α] :
    ∀ (m : List (α × β)) (k : α) (v : β), mget (mset m k v) k = some v
  | [], k, v => by simp [mset, mget]
  | (k', v') :: rest, k, v => by
      by_cases h : k' = k
      · simp [mset, mget, h]
      · simp [mset, mget, h, mget_mset_self rest k v]

theorem mget_mset_ne {α β : Type} [DecidableEq α] :
    ∀ (m : List (α × β)) (k k' : α) (v : β), k' ≠ k →
      mget (mset m k v) k' = mget m k'
  | [], k, k', v, h => by
      have hne : ¬k = k' := fun e => h e.symm
      simp [mset, mget, hne]
  | (k2, v2) :: rest, k, k', v, h => by
      have hne : ¬k = k' := fun e => h e.symm
      by_cases h2 : k2 = k
      · simp [mset, mget, h2, hne]
      · simp [mset, mget, h2, mget_mset_ne rest k k' v h]

theorem mhas_mset {α β : Type} [DecidableEq α] (m : List (α × β)) (k e : α)
    (v : β) : mhas (mset m k v) e = if e = k then true else mhas m e := by
  by_cases h : e = k
  · subst h
    simp [mhas, mget_mset_self]
  · simp [mhas, h, mget_mset_ne m k e v h]

theorem mget_mdel_self {α β : Type} [DecidableEq α] :
    ∀ (m : List (α × β)) (k : α), mget (mdel m k) k = none
  | [], k => rfl
  | (k', v') :: rest, k => by
      by_cases h : k' = k
      · simp [mdel, mget, h, mget_mdel_self rest k]
        have := mget_mdel_self rest k
        simpa [mdel] using this
      · simpa [mdel, mget, h] using mget_mdel_self rest k

theorem mget_mdel_ne {α β : Type} [DecidableEq α] :
    ∀ (m : List (α × β)) (k k' : α), k' ≠ k →
      mget (mdel m k) k' = mget m k'
  | [], k, k', _ => rfl
  | (k2, v2) :: rest, k, k', h => by
      by_cases h2 : k2 = k
      · have hne : ¬k2 = k' := by rw [h2]; exact fun e => h e.symm
        rw [show mdel ((k2, v2) :: rest) k = mdel rest k from by simp [mdel, h2],
          mget_mdel_ne rest k k' h, mget, if_neg hne]
      · rw [show mdel ((k2, v2) :: rest) k = (k2, v2) :: mdel rest k from by
            simp [mdel, h2]]
        by_cases h3 : k2 = k'
        · rw [mget, if_pos h3, mget, if_pos h3]
        · rw [mget, if_neg h3, mget, if_neg h3, mget_mdel_ne rest k k' h]

theorem mhas_mdel {α β : Type} [DecidableEq α] (m : List (α × β)) (k e : α) :
    mhas (mdel m k) e = if e = k then false else mhas m e := by
  by_cases h : e = k
  · subst h
    simp [mhas, mget_mdel_self]
  · simp [mhas, h, mget_mdel_ne m k e h]

theorem mem_mset_ne {α β : Type} [DecidableEq α] :
    ∀ (m : List (α × β)) (k : α) (v : β) (x : α × β),
      x ∈ mset m k v → x.1 ≠ k → x ∈ m
  | [], k, v, x, hx, hne => by
      simp only [mset, List.mem_singleton] at hx
      exact absurd (by rw [hx]) hne
  | (k2, v2) :: rest, k, v, x, hx, hne => by
      by_cases h2 : k2 = k
      · rw [mset, if_pos h2] at hx
        rcases List.mem_cons.1 hx with rfl | hx
        · exact absurd rfl hne
        · exact List.mem_cons_of_mem _ hx
      · rw [mset, if_neg h2] at hx
        rcases List.mem_cons.1 hx with rfl | hx
        · exact List.mem_cons_self _ _
        · exact List.mem_cons_of_mem _ (mem_mset_ne rest k v x hx hne)

theorem mem_mset_or {α β : Type} [DecidableEq α] :
    ∀ (m : List (α × β)) (k : α) (v : β) (x : α × β),
      x ∈ mset m k v → x = (k, v) ∨ x ∈ m
  | [], k, v, x, hx => by
      simp only [mset, List.mem_singleton] at hx
      exact Or.inl hx
  | (k2, v2) :: rest, k, v, x, hx => by
      by_cases h2 : k2 = k
      · rw [mset, if_pos h2] at hx
        rcases List.mem_cons.1 hx with rfl | hx
        · exact Or.inl rfl
        · exact Or.inr (List.mem_cons_of_mem _ hx)
      · rw [mset, if_neg h2] at hx
        rcases List.mem_cons.1 hx with rfl | hx
        · exact Or.inr (List.mem_cons_self _ _)
        · rcases mem_mset_or rest k v x hx with h | h
          · exact Or.inl h
          · exact Or.inr (List.mem_cons_of_mem _ h)

theorem mget_mem {α β : Type} [DecidableEq α] :
    ∀ (m : List (α × β)) (k : α) (v : β), mget m k = some v → (k, v) ∈ m
  | [], k, v, h => by simp [mget] at h
  | (k2, v2) :: rest, k, v, h => by
      rw [mget] at h
      split at h
      · next heq =>
          cases h
          rw [← heq]
          exact List.mem_cons_self _ _
      · exact List.mem_cons_of_mem _ (mget_mem rest k v h)

theorem mget_eq_none_of_forall_ne {α β : Type} [DecidableEq α] :
    ∀ (m : List (α × β)) (k : α), (∀ x ∈ m, x.1 ≠ k) → mget m k = none
  | [], _, _ => rfl
  | (k2, v2) :: rest, k, h => by
      rw [mget, if_neg (h (k2, v2) (List.mem_cons_self _ _))]
      exact mget_eq_none_of_forall_ne rest k
        (fun x hx => h x (List.mem_cons_of_mem _ hx))

theorem mem_mdel {α β : Type} [DecidableEq α] (m : List (α × β)) (k : α)
    (x : α × β) (hx : x ∈ mdel m k) : x ∈ m :=
  (List.mem_filter.1 hx).1

theorem mem_sadd {α : Type} [DecidableEq α] (l : List α) (x e : α)
    (h : e ∈ sadd l x) : e ∈ l ∨ e = x := by
  unfold sadd at h
  by_cases hx : x ∈ l
  · rw [if_pos hx] at h
    exact Or.inl h
  · rw [if_neg hx] at h
    rcases List.mem_append.1 h with h | h
    · exact Or.inl h
    · exact Or.inr (List.mem_singleton.1 h)

theorem mem_sdel {α : Type} [DecidableEq α] (l : List α) (x e : α)
    (h : e ∈ sdel l x) : e ∈ l ∧ e ≠ x := by
  unfold sdel at h
  have := List.mem_filter.1 h
  exact ⟨this.1, by simpa using this.2⟩

/-- Keys of `mset`: membership. -/
theorem mem_keys_mset {α β : Type} [DecidableEq α] :
    ∀ (m : List (α × β)) (k : α) (v : β) (x : α),
      x ∈ (mset m k v).map Prod.fst ↔ x ∈ m.map Prod.fst ∨ x = k
  | [], k, v, x => by simp [mset]
  | (k2, v2) :: rest, k, v, x => by
      by_cases h2 : k2 = k
      · subst h2
        simp [mset]
        tauto
      · simp [mset, h2, mem_keys_mset rest k v x]
        tauto

theorem nodup_keys_mset {α β : Type} [DecidableEq α] :
    ∀ (m : List (α × β)) (k : α) (v : β),
      (m.map Prod.fst).Nodup → ((mset m k v).map Prod.fst).Nodup
  | [], k, v, _ => by simp [mset]
  | (k2, v2) :: rest, k, v, h => by
      rw [List.map_cons, List.nodup_cons] at h
      by_cases h2 : k2 = k
      · rw [mset, if_pos h2, List.map_cons, List.nodup_cons]
        exact ⟨by rw [← h2]; exact h.1, h.2⟩
      · rw [mset, if_neg h2, List.map_cons, List.nodup_cons]
        refine ⟨?_, nodup_keys_mset rest k v h.2⟩
        intro hmem
        rcases (mem_keys_mset rest k v k2).1 hmem with hmem | hmem
        · exact h.1 hmem
        · exact h2 hmem

theorem filter_keys_nil {α β : Type} [DecidableEq α] :
    ∀ (m : List (α × β)) (c : α), c ∉ m.map Prod.fst →
      m.filter (fun kv => kv.1 = c) = []
  | [], c, _ => rfl
  | (k2, v2) :: rest, c, h => by
      rw [List.map_cons, List.mem_cons, not_or] at h
      have hne : ¬k2 = c := fun e => h.1 e.symm
      simp only [List.filter_cons, decide_eq_true_eq, hne, if_false]
      exact filter_keys_nil rest c h.2

theorem filter_mset_self {α β : Type} [DecidableEq α] :
    ∀ (m : List (α × β)) (c : α) (v : β), (m.map Prod.fst).Nodup →
      (mset m c v).filter (fun kv => kv.1 = c) = [(c, v)]
  | [], c, v, _ => by simp [mset]
  | (k2, v2) :: rest, c, v, h => by
      rw [List.map_cons, List.nodup_cons] at h
      by_cases h2 : k2 = c
      · rw [mset, if_pos h2]
        have hstep : List.filter (fun kv => decide (kv.1 = c)) ((c, v) :: rest)
            = (c, v) :: List.filter (fun kv => decide (kv.1 = c)) rest := by
          simp
        simp only [hstep]
        rw [filter_keys_nil rest c (by rw [← h2]; exact h.1)]
      · rw [mset, if_neg h2]
        simp only [List.filter_cons, decide_eq_true_eq, h2, if_false]
        exact filter_mset_self rest c v h.2

/-! ### Frame lemmas for the delivery layer -/

theorem applyPendingUpdate_frame (el : Elem) (c : String) (t : VState) :
    (applyPendingUpdate el c t).observedElements = t.observedElements
    ∧ (applyPendingUpdate el c t).visibleElements = t.visibleElements
    ∧ (applyPendingUpdate el c t).stats.totalObserved
        = t.stats.totalObserved := by
  unfold applyPendingUpdate
  cases hm : mget t.pendingUpdates c with
  | none => exact ⟨rfl, rfl, rfl⟩
  | some patch =>
      simp only [applyPatchToElement]
      split <;> exact ⟨rfl, rfl, rfl⟩

theorem handlePatch_apply_foldl_frame (patch : VPatch) :
    ∀ (els : List Elem) (s : VState),
      (els.foldl
        (fun st el =>
          let st1 := applyPatchToElement el patch st
          { st1 with stats := { st1.stats with
              updatesApplied := st1.stats.updatesApplied + 1 } }) s).observedElements
        = s.observedElements
      ∧ (els.foldl
        (fun st el =>
          let st1 := applyPatchToElement el patch st
          { st1 with stats := { st1.stats with
              updatesApplied := st1.stats.updatesApplied + 1 } }) s).visibleElements
        = s.visibleElements
      ∧ (els.foldl
        (fun st el =>
          let st1 := applyPatchToElement el patch st
          { st1 with stats := { st1.stats with
              updatesApplied := st1.stats.updatesApplied + 1 } }) s).pendingUpdates
        = s.pendingUpdates
  | [], s => ⟨rfl, rfl, rfl⟩
  | el :: els, s => by
      simp only [List.foldl_cons]
      exact handlePatch_apply_foldl_frame patch els _

theorem handlePatch_frame (patch : VPatch) (s : VState) :
    (handlePatch patch s).observedElements = s.observedElements
    ∧ (handlePatch patch s).visibleElements = s.visibleElements := by
  unfold handlePatch
  cases patch.contentId with
  | none => exact ⟨rfl, rfl⟩
  | some c =>
      simp only
      split
      · exact ⟨rfl, rfl⟩
      · split
        · exact ⟨(handlePatch_apply_foldl_frame patch _ _).1,
            (handlePatch_apply_foldl_frame patch _ _).2.1⟩
        · exact ⟨(handlePatch_apply_foldl_frame patch _ _).1,
            (handlePatch_apply_foldl_frame patch _ _).2.1⟩

/-! ### Delivery effects of a visible transition -/

/-- Effects of `applyPendingUpdate` when a patch is deferred for the id and
no other registered element shares it: one delivery-log entry for this
target, the deferred entry dropped, the visible set untouched. -/
theorem applyPendingUpdate_effects (el : Elem) (c : String) (t : VState)
    (p : VPatch)
    (hp : mget t.pendingUpdates c = some p)
    (hfilter : t.observedElements.filter
        (fun em => decide (em.2.contentId = some c ∧ em.1 ≠ el)) = []) :
    (applyPendingUpdate el c t).appliedLog = t.appliedLog ++ [(el.eid, p.pid)]
    ∧ (applyPendingUpdate el c t).pendingUpdates = mdel t.pendingUpdates c
    ∧ (applyPendingUpdate el c t).visibleElements = t.visibleElements := by
  unfold applyPendingUpdate
  rw [hp]
  simp only [applyPatchToElement]
  rw [hfilter]
  simp only [List.map_nil, List.any_nil, Bool.false_eq_true, if_false]
  refine ⟨?_, ?_, ?_⟩ <;> trivial

/-- Becoming visible with a deferred patch for the target's content id and
no other registered element sharing that id: the patch is applied to this
target (logged once) and the deferred entry is dropped. -/
theorem handleIntersection_delivers (entry : IEntry) (c : String) (p : VPatch)
    (s : VState)
    (hid : entry.target.aevipId = some c)
    (hvis : entry.isIntersecting = true)
    (hpend : mget s.pendingUpdates c = some p)
    (hsingle : ∀ em ∈ s.observedElements, em.1 ≠ entry.target →
        em.2.contentId ≠ some c) :
    (handleIntersection entry s).appliedLog
        = s.appliedLog ++ [(entry.target.eid, p.pid)]
    ∧ (handleIntersection entry s).pendingUpdates = mdel s.pendingUpdates c
    ∧ (handleIntersection entry s).visibleElements
        = sadd s.visibleElements entry.target := by
  have hfilter :
      (mset s.observedElements entry.target (intersectMeta entry s)).filter
        (fun em => decide (em.2.contentId = some c ∧ em.1 ≠ entry.target))
        = [] := by
    rw [List.filter_eq_nil_iff]
    intro em hmem
    simp only [decide_eq_true_eq, not_and]
    intro hcid hne
    exact absurd hcid (hsingle em (mem_mset_ne _ _ _ _ hmem hne) hne)
  unfold handleIntersection
  rw [hid]
  simp only [hvis, if_true]
  unfold becomeVisible
  simp only
  split
  · have heff := applyPendingUpdate_effects entry.target c
      { s with
          observedElements :=
            mset s.observedElements entry.target (intersectMeta entry s),
          visibleElements := sadd s.visibleElements entry.target,
          stats := { s.stats with currentlyVisible :=
            (sadd s.visibleElements entry.target).length } } p hpend hfilter
    exact ⟨heff.1, heff.2.1, heff.2.2⟩
  · next h =>
      exfalso
      simp [mhas, intersectRecord, hpend] at h

/-- Becoming visible with no deferred patch for the target's content id
changes no delivery state: nothing is applied and the table is
untouched. -/
theorem handleIntersection_no_pending (entry : IEntry) (c : String)
    (s : VState)
    (hid : entry.target.aevipId = some c)
    (hvis : entry.isIntersecting = true)
    (hnone : mget s.pendingUpdates c = none) :
    (handleIntersection entry s).appliedLog = s.appliedLog
    ∧ (handleIntersection entry s).pendingUpdates = s.pendingUpdates := by
  unfold handleIntersection
  rw [hid]
  simp only [hvis, if_true]
  unfold becomeVisible
  simp only
  split
  · next h =>
      exfalso
      simp [mhas, intersectRecord, hnone] at h
  · exact ⟨rfl, rfl⟩

/-! ## Claim C6: exactly-once deferred delivery -/

/-- C6: a registered, currently invisible target whose content id has a
deferred patch receives exactly that patch on its visible transition
(exactly one new delivery-log entry); the deferred entry is removed since
no other registered target shares the content id; and a further visible
transition of the same target delivers nothing again. -/
theorem C6_deferred_delivery (e : Elem) (c : String) (p : VPatch)
    (ratio rect ratio2 rect2 : Nat) (s : VState)
    (hid : e.aevipId = some c)
    (_hobs : mhas s.observedElements e = true)
    (_hinvis : s.visibleElements.contains e = false)
    (hpend : mget s.pendingUpdates c = some p)
    (hsingle : ∀ em ∈ s.observedElements, em.1 ≠ e →
        em.2.contentId ≠ some c) :
    (handleIntersection ⟨e, true, ratio, rect⟩ s).appliedLog
        = s.appliedLog ++ [(e.eid, p.pid)]
    ∧ mget (handleIntersection ⟨e, true, ratio, rect⟩ s).pendingUpdates c
        = none
    ∧ (handleIntersection ⟨e, true, ratio2, rect2⟩
          (handleIntersection ⟨e, true, ratio, rect⟩ s)).appliedLog
        = (handleIntersection ⟨e, true, ratio, rect⟩ s).appliedLog := by
  have h1 := handleIntersection_delivers ⟨e, true, ratio, rect⟩ c p s hid rfl
    hpend hsingle
  have hnone : mget (handleIntersection ⟨e, true, ratio, rect⟩ s).pendingUpdates
      c = none := by
    rw [h1.2.1]
    exact mget_mdel_self s.pendingUpdates c
  have h2 := handleIntersection_no_pending ⟨e, true, ratio2, rect2⟩ c
    (handleIntersection ⟨e, true, ratio, rect⟩ s) hid rfl hnone
  exact ⟨h1.1, hnone, h2.1⟩

/-- C6 (witness): the single-target scenario built concretely — observe an
element while invisible, deliver a patch (deferred), then the visible
transition. -/
theorem C6_deferred_delivery_witness :
    (handleIntersection ⟨⟨1, some ("c"), none⟩, true, 5, 6⟩
        (handlePatch ⟨10, some ("c")⟩
          (observeElement ⟨1, some ("c"), none⟩ vInit))).appliedLog
      = (handlePatch ⟨10, some ("c")⟩
          (observeElement ⟨1, some ("c"), none⟩ vInit)).appliedLog
        ++ [(1, 10)]
    ∧ mget (handleIntersection ⟨⟨1, some ("c"), none⟩, true, 5, 6⟩
        (handlePatch ⟨10, some ("c")⟩
          (observeElement ⟨1, some ("c"), none⟩ vInit))).pendingUpdates "c"
      = none := by
  have h := C6_deferred_delivery ⟨1, some ("c"), none⟩ "c" ⟨10, some ("c")⟩
    5 6 7 8
    (handlePatch ⟨10, some ("c")⟩ (observeElement ⟨1, some ("c"), none⟩ vInit))
    (by decide) (by decide) (by decide) (by decide) (by decide)
  exact ⟨h.1, h.2.1⟩

/-! ## Claim C7: deferred coalescing -/

/-- A patch routed while no element registered for its content id is
visible lands in the Deferred Update Table by `Map.set`, overwriting any
previous entry for that id. -/
theorem handlePatch_noVisible (p : VPatch) (c : String) (s : VState)
    (hc : p.contentId = some c)
    (hnovis : ∀ em ∈ s.observedElements, em.2.contentId = some c →
        s.visibleElements.contains em.1 = false) :
    (handlePatch p s).pendingUpdates = mset s.pendingUpdates c p := by
  have hall : ∀ el ∈ (s.observedElements.filter
      (fun em => decide (em.2.contentId = some c))).map (fun em => em.1),
      s.visibleElements.contains el = false := by
    intro el hel
    rw [List.mem_map] at hel
    obtain ⟨em, hem, rfl⟩ := hel
    have hf := List.mem_filter.1 hem
    exact hnovis em hf.1 (by simpa using hf.2)
  unfold handlePatch
  rw [hc]
  simp only
  split
  next hemp => rfl
  next hemp =>
    split
    next hinv =>
      exfalso
      rw [List.filter_eq_self.2 (by
        intro a ha
        simp only [Bool.not_eq_true']
        exact hall a ha)] at hinv
      exact hemp hinv
    next hinv =>
      show mset (List.foldl _ s _).pendingUpdates c p = mset s.pendingUpdates c p
      rw [(handlePatch_apply_foldl_frame p _ _).2.2]

/-- `handlePatch` keeps the Deferred Update Table's keys duplicate-free. -/
theorem handlePatch_nodup_keys (q : VPatch) (t : VState)
    (ht : (t.pendingUpdates.map Prod.fst).Nodup) :
    ((handlePatch q t).pendingUpdates.map Prod.fst).Nodup := by
  unfold handlePatch
  cases hq : q.contentId with
  | none => exact ht
  | some c =>
      simp only
      split
      · exact nodup_keys_mset _ _ _ ht
      · split
        · show ((List.foldl _ t _).pendingUpdates.map Prod.fst).Nodup
          rw [(handlePatch_apply_foldl_frame q _ _).2.2]
          exact ht
        · show ((mset (List.foldl _ t _).pendingUpdates c q).map Prod.fst).Nodup
          rw [(handlePatch_apply_foldl_frame q _ _).2.2]
          exact nodup_keys_mset _ _ _ ht

/-- C7: the Deferred Update Table holds at most one entry per content id
(`handlePatch` preserves duplicate-freeness of its keys), and routing two
patches for the same content id through a registry with zero visible
targets for that id leaves exactly one entry for it — the later patch. -/
theorem C7_deferred_coalescing (c : String) (p1 p2 : VPatch) (s : VState)
    (h1 : p1.contentId = some c) (h2 : p2.contentId = some c)
    (hnovis : ∀ em ∈ s.observedElements, em.2.contentId = some c →
        s.visibleElements.contains em.1 = false)
    (hwf : (s.pendingUpdates.map Prod.fst).Nodup) :
    ((handlePatch p2 (handlePatch p1 s)).pendingUpdates.filter
        (fun kv => kv.1 = c)) = [(c, p2)]
    ∧ ((handlePatch p2 (handlePatch p1 s)).pendingUpdates.map Prod.fst).Nodup
    ∧ (∀ (q : VPatch) (t : VState), (t.pendingUpdates.map Prod.fst).Nodup →
        ((handlePatch q t).pendingUpdates.map Prod.fst).Nodup) := by
  have hframe := handlePatch_frame p1 s
  have hnovis1 : ∀ em ∈ (handlePatch p1 s).observedElements,
      em.2.contentId = some c →
      (handlePatch p1 s).visibleElements.contains em.1 = false := by
    rw [hframe.1, hframe.2]
    exact hnovis
  have hs1 : (handlePatch p1 s).pendingUpdates = mset s.pendingUpdates c p1 :=
    handlePatch_noVisible p1 c s h1 hnovis
  have hs2 : (handlePatch p2 (handlePatch p1 s)).pendingUpdates
      = mset (mset s.pendingUpdates c p1) c p2 := by
    rw [handlePatch_noVisible p2 c _ h2 hnovis1, hs1]
  refine ⟨?_, ?_, handlePatch_nodup_keys⟩
  · rw [hs2]
    exact filter_mset_self _ c p2 (nodup_keys_mset _ c p1 hwf)
  · rw [hs2]
    exact nodup_keys_mset _ c p2 (nodup_keys_mset _ c p1 hwf)

/-- C7 (witness): two patches for one content id against a registry whose
only element for that id is invisible leave exactly the later patch. -/
theorem C7_deferred_coalescing_witness :
    ((handlePatch ⟨11, some ("c")⟩ (handlePatch ⟨10, some ("c")⟩
        (observeElement ⟨1, some ("c"), none⟩ vInit))).pendingUpdates.filter
        (fun kv => kv.1 = "c")) = [("c", ⟨11, some ("c")⟩)] := by
  have h := C7_deferred_coalescing "c" ⟨10, some ("c")⟩ ⟨11, some ("c")⟩
    (observeElement ⟨1, some ("c"), none⟩ vInit)
    (by decide) (by decide) (by decide) (by decide)
  exact h.1

/-! ## Claim C8: registry membership invariant -/

theorem observeElement_vis (x : Elem) (s : VState) :
    (observeElement x s).visibleElements = s.visibleElements := by
  unfold observeElement
  split <;> rfl

theorem observeElement_has (x : Elem) (s : VState) (e : Elem) :
    mhas (observeElement x s).observedElements e
      = if x = e then true else mhas s.observedElements e := by
  unfold observeElement
  split
  next hx =>
    by_cases he : x = e
    · subst he
      rw [if_pos rfl]
      exact hx
    · rw [if_neg he]
  next hx =>
    show mhas (mset s.observedElements x _) e = _
    rw [mhas_mset]
    by_cases he : e = x
    · simp [he]
    · have hne : ¬x = e := fun hh => he hh.symm
      simp [he, hne]

theorem unobserveElement_has (x : Elem) (s : VState) (e : Elem) :
    mhas (unobserveElement x s).observedElements e
      = if x = e then false else mhas s.observedElements e := by
  unfold unobserveElement
  split
  next hx =>
    show mhas (mdel s.observedElements x) e = _
    rw [mhas_mdel]
    by_cases he : e = x
    · simp [he]
    · have hne : ¬x = e := fun hh => he hh.symm
      simp [he, hne]
  next hx =>
    by_cases he : x = e
    · subst he
      rw [if_pos rfl]
      exact Bool.eq_false_iff.2 hx
    · rw [if_neg he]

theorem unobserveElement_vis_sub (x : Elem) (s : VState) (e : Elem)
    (h : e ∈ (unobserveElement x s).visibleElements) :
    e ∈ s.visibleElements := by
  unfold unobserveElement at h
  split at h
  · exact (mem_sdel _ _ _ h).1
  · exact h

theorem becomeVisible_observed (en : IEntry) (c : String) (t : VState) :
    (becomeVisible en c t).observedElements = t.observedElements := by
  unfold becomeVisible
  simp only
  split
  · exact (applyPendingUpdate_frame _ _ _).1
  · rfl

theorem becomeVisible_vis (en : IEntry) (c : String) (t : VState) :
    (becomeVisible en c t).visibleElements
      = sadd t.visibleElements en.target := by
  unfold becomeVisible
  simp only
  split
  · exact (applyPendingUpdate_frame _ _ _).2.1
  · rfl

theorem becomeHidden_observed (en : IEntry) (t : VState) :
    (becomeHidden en t).observedElements = t.observedElements := rfl

theorem becomeHidden_vis (en : IEntry) (t : VState) :
    (becomeHidden en t).visibleElements = sdel t.visibleElements en.target :=
  rfl

/-- When the delivered entry's target is currently observed, the metadata
re-`set` of `handleIntersection` changes no registry membership. -/
theorem handleIntersection_has (en : IEntry) (s : VState)
    (hleg : mhas s.observedElements en.target = true) (e : Elem) :
    mhas (handleIntersection en s).observedElements e
      = mhas s.observedElements e := by
  unfold handleIntersection
  cases hid : en.target.aevipId with
  | none => rfl
  | some c =>
      simp only
      have hbase : mhas (intersectRecord en s).observedElements e
          = mhas s.observedElements e := by
        show mhas (mset s.observedElements en.target _) e = _
        rw [mhas_mset]
        by_cases he : e = en.target
        · rw [if_pos he, he]
          exact hleg.symm
        · rw [if_neg he]
      split
      · rw [becomeVisible_observed]
        exact hbase
      · rw [becomeHidden_observed]
        exact hbase

theorem handleIntersection_vis_sub (en : IEntry) (s : VState) (e : Elem)
    (h : e ∈ (handleIntersection en s).visibleElements) :
    e ∈ s.visibleElements ∨ e = en.target := by
  unfold handleIntersection at h
  cases hid : en.target.aevipId with
  | none =>
      rw [hid] at h
      exact Or.inl h
  | some c =>
      rw [hid] at h
      simp only at h
      split at h
      · rw [becomeVisible_vis] at h
        rcases mem_sadd _ _ _ h with h | h
        · exact Or.inl h
        · exact Or.inr h
      · rw [becomeHidden_vis] at h
        exact Or.inl (mem_sdel _ _ _ h).1

/-- Induction core for C8: along any event sequence whose intersection
entries are delivered while their target is registered, (a) a visible
element is always a registry member, and (b) registry membership evolves
exactly as the spec's discovery-to-removal window (`refMember`). -/
theorem run_preserves_registry :
    ∀ (evs : List VEvent) (s : VState),
      legalFrom s evs = true →
      (∀ e ∈ s.visibleElements, mhas s.observedElements e = true) →
      (∀ e ∈ (run s evs).visibleElements,
          mhas (run s evs).observedElements e = true)
      ∧ ∀ e : Elem, mhas (run s evs).observedElements e
          = refMember e (mhas s.observedElements e) evs
  | [], s, _, hvis => ⟨hvis, fun _ => rfl⟩
  | ev :: evs, s, hleg, hvis => by
      rw [legalFrom, Bool.and_eq_true] at hleg
      obtain ⟨hcond, hleg'⟩ := hleg
      have hstep_vis : ∀ e ∈ (step s ev).visibleElements,
          mhas (step s ev).observedElements e = true := by
        cases ev with
        | observe x =>
            intro e he
            rw [show (step s (.observe x)).visibleElements
                = s.visibleElements from observeElement_vis x s] at he
            rw [show mhas (step s (.observe x)).observedElements e
                = _ from observeElement_has x s e]
            by_cases hxe : x = e
            · rw [if_pos hxe]
            · rw [if_neg hxe]
              exact hvis e he
        | unobserve x =>
            intro e he
            rw [show mhas (step s (.unobserve x)).observedElements e
                = _ from unobserveElement_has x s e]
            by_cases hxe : x = e
            · exfalso
              subst hxe
              show False
              have he' : x ∈ (unobserveElement x s).visibleElements := he
              unfold unobserveElement at he'
              split at he'
              · have := (mem_sdel _ _ _ he').2
                exact this rfl
              · next hx => exact hx (hvis x he')
            · rw [if_neg hxe]
              exact hvis e (unobserveElement_vis_sub x s e he)
        | intersect en =>
            intro e he
            have hc : mhas s.observedElements en.target = true := hcond
            rw [show mhas (step s (.intersect en)).observedElements e
                = _ from handleIntersection_has en s hc e]
            rcases handleIntersection_vis_sub en s e he with h | h
            · exact hvis e h
            · rw [h]
              exact hc
      have ih := run_preserves_registry evs (step s ev) hleg' hstep_vis
      refine ⟨ih.1, ?_⟩
      intro e
      have hrm : refMember e (mhas s.observedElements e) (ev :: evs)
          = refMember e (refUpdate e (mhas s.observedElements e) ev) evs := rfl
      rw [hrm]
      have hstep_has : mhas (step s ev).observedElements e
          = refUpdate e (mhas s.observedElements e) ev := by
        cases ev with
        | observe x => exact observeElement_has x s e
        | unobserve x => exact unobserveElement_has x s e
        | intersect en => exact handleIntersection_has en s hcond e
      rw [← hstep_has]
      exact ih.2 e

/-- C8 (counterexample).  The sequence observe, unobserve, then a late
visible intersection entry (the debounced observer callback retains its
entries across `unobserve`): afterwards the element is a member of
`observedElements` and of `visibleElements`, although the spec's
discovery-to-removal window (`refMember`) says it is not registered —
`handleIntersection` unconditionally re-`set`s the target into the
registry. -/
theorem C8_registry_counterexample :
    mhas (run vInit [.observe ⟨1, some ("c"), none⟩,
        .unobserve ⟨1, some ("c"), none⟩,
        .intersect ⟨⟨1, some ("c"), none⟩, true, 0, 0⟩]).observedElements
      ⟨1, some ("c"), none⟩ = true
    ∧ (run vInit [.observe ⟨1, some ("c"), none⟩,
        .unobserve ⟨1, some ("c"), none⟩,
        .intersect ⟨⟨1, some ("c"), none⟩, true, 0, 0⟩]).visibleElements.contains
      ⟨1, some ("c"), none⟩ = true
    ∧ refMember ⟨1, some ("c"), none⟩
        (mhas vInit.observedElements ⟨1, some ("c"), none⟩)
        [.observe ⟨1, some ("c"), none⟩,
          .unobserve ⟨1, some ("c"), none⟩,
          .intersect ⟨⟨1, some ("c"), none⟩, true, 0, 0⟩] = false := by
  decide

/-- C8 (amended): for every event sequence in which each intersection entry
is delivered while its element is currently registered (no late delivery
after `unobserveElement`), an element is a Registry member exactly between
its `observeElement` and its `unobserveElement` (the `refMember` window),
and a visible element is always a Registry member — never visible without
being observed. -/
theorem C8_registry_invariant_amended (evs : List VEvent) (s : VState)
    (hleg : legalFrom s evs = true)
    (hvis : ∀ e ∈ s.visibleElements, mhas s.observedElements e = true) :
    (∀ e ∈ (run s evs).visibleElements,
        mhas (run s evs).observedElements e = true)
    ∧ ∀ e : Elem, mhas (run s evs).observedElements e
        = refMember e (mhas s.observedElements e) evs :=
  run_preserves_registry evs s hleg hvis

/-- C8 (witness): the amended invariant on a concrete legal
observe/intersect/unobserve run. -/
theorem C8_registry_invariant_amended_witness :
    legalFrom vInit [.observe ⟨1, some ("c"), none⟩,
        .intersect ⟨⟨1, some ("c"), none⟩, true, 0, 0⟩,
        .unobserve ⟨1, some ("c"), none⟩] = true
    ∧ mhas (run vInit [.observe ⟨1, some ("c"), none⟩,
        .intersect ⟨⟨1, some ("c"), none⟩, true, 0, 0⟩,
        .unobserve ⟨1, some ("c"), none⟩]).observedElements
        ⟨1, some ("c"), none⟩
      = refMember ⟨1, some ("c"), none⟩
        (mhas vInit.observedElements ⟨1, some ("c"), none⟩)
        [.observe ⟨1, some ("c"), none⟩,
          .intersect ⟨⟨1, some ("c"), none⟩, true, 0, 0⟩,
          .unobserve ⟨1, some ("c"), none⟩] :=
  ⟨by decide,
    (C8_registry_invariant_amended
      [.observe ⟨1, some ("c"), none⟩,
        .intersect ⟨⟨1, some ("c"), none⟩, true, 0, 0⟩,
        .unobserve ⟨1, some ("c"), none⟩] vInit (by decide)
      (by decide)).2 ⟨1, some ("c"), none⟩⟩

end ViewportSync

/-! ## Heap model for the mutation claim about `applyPatch`

The pure diff/apply embedding above cannot express "does not mutate its
input", so `applyPatch` is embedded a second time against an explicit
mutable heap: JavaScript objects live in cells addressed by allocation
order, object-valued properties hold references, and every property write
is a cell update.  `JSON.parse(JSON.stringify(obj))` reads the value out of
the heap (`readVal`, fuel-bounded — a cyclic object makes `stringify`
throw, which the exhausted fuel conservatively models) and allocates a
fresh copy (`allocVal`).  The operation replay then mutates only the
cloned cells; the claim is the frame property that every cell allocated
before the call — in particular everything reachable from the input — is
left untouched, plus the malformed-patch clause: a patch whose `diff` is
missing returns the input itself with the heap unchanged. -/

namespace HeapModel

open ViewportSync

abbrev Addr := Nat

inductive HPrim where
  | undefined : HPrim
  | null : HPrim
  | bool (b : Bool) : HPrim
  | num (n : Int) : HPrim
  | str (s : String) : HPrim
  deriving DecidableEq

/-- A JavaScript runtime value: a primitive, or a reference to an object
cell. -/
inductive HVal where
  | prim (p : HPrim)
  | ref (a : Addr)
  deriving DecidableEq

abbrev HFields := List (String × HVal)

/-- The object heap: cells indexed by address, plus the bump-allocation
counter. -/
structure Heap where
  cells : List (Addr × HFields)
  next : Addr
  deriving DecidableEq

def readCell (h : Heap) (a : Addr) : Option HFields := mget h.cells a

def writeCell (h : Heap) (a : Addr) (flds : HFields) : Heap :=
  { h with cells := mset h.cells a flds }

/-- Allocate a fresh cell (a new object literal). -/
def allocCell (h : Heap) (flds : HFields) : Addr × Heap :=
  (h.next, { cells := mset h.cells h.next flds, next := h.next + 1 })

def primToJVal : HPrim → JVal
  | .undefined => .undefined
  | .null => .null
  | .bool b => .bool b
  | .num n => .num n
  | .str s => .str s

mutual
/-- Materialize a pure value in the heap, allocating fresh cells for every
object layer (the shape `JSON.parse` produces: a tree of fresh objects). -/
def allocVal : Heap → JVal → HVal × Heap
  | h, .undefined => (.prim .undefined, h)
  | h, .null => (.prim .null, h)
  | h, .bool b => (.prim (.bool b), h)
  | h, .num n => (.prim (.num n), h)
  | h, .str s => (.prim (.str s), h)
  | h, .obj fs =>
      let r1 := allocFields h fs
      let r2 := allocCell r1.2 r1.1
      (.ref r2.1, r2.2)

def allocFields : Heap → JFields → HFields × Heap
  | h, .nil => ([], h)
  | h, .cons k v rest =>
      let rv := allocVal h v
      let rr := allocFields rv.2 rest
      ((k, rv.1) :: rr.1, rr.2)
end

/-- Read the pure value denoted by a heap value, spending one unit of fuel
per dereference (`JSON.stringify`; a cycle exhausts any fuel, as the
thrown TypeError would).  The `Sum` folds the mutual value/fields reading
into one fuel-structural function. -/
def readSp : Nat → Heap → Sum HVal HFields → Option (Sum JVal JFields)
  | 0, _, _ => none
  | _ + 1, _, .inl (.prim p) => some (.inl (primToJVal p))
  | fuel + 1, h, .inl (.ref a) =>
      match readCell h a with
      | none => none
      | some flds =>
          match readSp fuel h (.inr flds) with
          | some (.inr jfs) => some (.inl (.obj jfs))
          | _ => none
  | _ + 1, _, .inr [] => some (.inr .nil)
  | fuel + 1, h, .inr ((k, x) :: rest) =>
      match readSp fuel h (.inl x), readSp fuel h (.inr rest) with
      | some (.inl jv), some (.inr jrest) => some (.inr (.cons k jv jrest))
      | _, _ => none

def readVal (fuel : Nat) (h : Heap) (x : HVal) : Option JVal :=
  match readSp fuel h (.inl x) with
  | some (.inl v) => some v
  | _ => none

/-- JavaScript truthiness of a runtime value (objects are truthy). -/
def hFalsy : HVal → Bool
  | .prim .undefined => true
  | .prim .null => true
  | .prim (.bool b) => !b
  | .prim (.num n) => n == 0
  | .prim (.str s) => s == ""
  | .ref _ => false

/-- Heap-level `add`/`replace` traversal of `applyOperation`
(viewport-sync.js:656-669): walk the path from `cur`; an absent
intermediate key gets a freshly allocated `{}` written in place
(`current[part] = {}`); the leaf assignment writes the parent cell.
TypeErrors (`in`/assignment on a primitive, `null` or `undefined`) are the
`error` outcome; the heap mutated so far is kept, as the thrown exception
does not roll writes back. -/
def setPathH : Heap → HVal → List String → HVal → (Except Unit Unit) × Heap
  | h, _, [], _ => (.error (), h)
  | h, cur, [p], v =>
      match cur with
      | .ref a =>
          match readCell h a with
          | some flds => (.ok (), writeCell h a (mset flds p v))
          | none => (.error (), h)
      | .prim _ => (.error (), h)
  | h, cur, p :: q :: rest, v =>
      match cur with
      | .ref a =>
          match readCell h a with
          | some flds =>
              if mhas flds p then
                setPathH h ((mget flds p).getD (.prim .undefined)) (q :: rest) v
              else
                let r := allocCell h []
                let h2 := writeCell r.2 a (mset flds p (.ref r.1))
                setPathH h2 (.ref r.1) (q :: rest) v
          | none => (.error (), h)
      | .prim _ => (.error (), h)

/-- Heap-level `remove` traversal (viewport-sync.js:670-680): a falsy
intermediate returns with the heap unchanged (the source returns the root
untouched); reaching the parent deletes the key in place; property access
on `null`/`undefined` throws. -/
def removePathH : Heap → HVal → List String → (Except Unit Unit) × Heap
  | h, _, [] => (.error (), h)
  | h, cur, [p] =>
      match cur with
      | .ref a =>
          match readCell h a with
          | some flds => (.ok (), writeCell h a (mdel flds p))
          | none => (.error (), h)
      | .prim .null => (.error (), h)
      | .prim .undefined => (.error (), h)
      | .prim _ => (.ok (), h)
  | h, cur, p :: q :: rest =>
      match cur with
      | .prim .null => (.error (), h)
      | .prim .undefined => (.error (), h)
      | .prim _ => (.ok (), h)
      | .ref a =>
          match readCell h a with
          | none => (.error (), h)
          | some flds =>
              let child := (mget flds p).getD (.prim .undefined)
              if hFalsy child then (.ok (), h)
              else removePathH h child (q :: rest)

/-- Heap-level `applyOperation` (viewport-sync.js:652-684).  The
operation's value is patch data (parsed off the wire), materialized by
fresh allocation. -/
def applyOperationH (h : Heap) (root : HVal) (op : Op) :
    (Except Unit HVal) × Heap :=
  match op with
  | .add path v =>
      match splitPath path with
      | [] =>
          let r := allocVal h v
          (.ok r.1, r.2)
      | p :: rest =>
          let r := allocVal h v
          match setPathH r.2 root (p :: rest) r.1 with
          | (.ok _, h2) => (.ok root, h2)
          | (.error e, h2) => (.error e, h2)
  | .replace path v =>
      match splitPath path with
      | [] =>
          let r := allocVal h v
          (.ok r.1, r.2)
      | p :: rest =>
          let r := allocVal h v
          match setPathH r.2 root (p :: rest) r.1 with
          | (.ok _, h2) => (.ok root, h2)
          | (.error e, h2) => (.error e, h2)
  | .remove path =>
      match splitPath path with
      | [] => (.ok (.prim .undefined), h)
      | p :: rest =>
          match removePathH h root (p :: rest) with
          | (.ok _, h2) => (.ok root, h2)
          | (.error e, h2) => (.error e, h2)

/-- The operation replay loop of `applyPatch`; a thrown TypeError aborts
the loop with the heap mutated so far. -/
def applyOpsH : Heap → HVal → List Op → (Except Unit HVal) × Heap
  | h, cur, [] => (.ok cur, h)
  | h, cur, op :: rest =>
      match applyOperationH h cur op with
      | (.ok cur2, h2) => applyOpsH h2 cur2 rest
      | (.error e, h2) => (.error e, h2)

/-- Heap-level `AevIPProtocol.applyPatch` (viewport-sync.js:628-647):
missing `diff` returns the input object itself, heap untouched; otherwise
`JSON.parse(JSON.stringify(obj))` — read the denoted value (throwing on a
cycle or an `undefined` root), drop `undefined`-valued properties
(`jclone`), allocate the copy fresh — and replay the operations on the
copy. -/
def applyPatchH (fuel : Nat) (h : Heap) (root : HVal) (p : DPatch) :
    (Except Unit HVal) × Heap :=
  match p.diff with
  | none => (.ok root, h)
  | some ops =>
      match readVal fuel h root with
      | none => (.error (), h)
      | some jv =>
          if jv = .undefined then (.error (), h)
          else
            let r := allocVal h (jclone jv)
            applyOpsH r.2 r.1 ops

/-- A runtime value refers only below `n`. -/
def hvalBelow (x : HVal) (n : Nat) : Bool :=
  match x with
  | .ref a => a < n
  | .prim _ => true

/-- Well-formed heap: every cell lives below the allocation counter and
refers only below it. -/
def heapClosedB (h : Heap) : Bool :=
  h.cells.all (fun cell =>
    decide (cell.1 < h.next) && cell.2.all (fun kv => hvalBelow kv.2 h.next))

/-! ### The frame argument

`n0` is the allocation counter at the start of `applyPatch`.  Everything
the call writes sits at addresses `≥ n0`: the clone and the patch values
are freshly allocated, and the replay traverses only cells reachable from
the clone root, which stay `≥ n0` because cells in that region never refer
below it (`highOK`).  `LowAgree` is the frame property itself; `Inv` is
carried through every step. -/

def LowAgree (n0 : Nat) (h h' : Heap) : Prop :=
  ∀ a, a < n0 → readCell h' a = readCell h a

def refGE (n0 : Nat) : HVal → Prop
  | .ref a => n0 ≤ a
  | .prim _ => True

def fldsGE (n0 : Nat) (flds : HFields) : Prop := ∀ kv ∈ flds, refGE n0 kv.2

def highOK (n0 : Nat) (h : Heap) : Prop :=
  ∀ a flds, n0 ≤ a → readCell h a = some flds → fldsGE n0 flds

def Inv (n0 : Nat) (h : Heap) : Prop := n0 ≤ h.next ∧ highOK n0 h

/-- The three facts every mutation step provides. -/
def Step (n0 : Nat) (h h' : Heap) : Prop :=
  Inv n0 h' ∧ LowAgree n0 h h' ∧ h.next ≤ h'.next

theorem Step.refl (n0 : Nat) (h : Heap) (hInv : Inv n0 h) : Step n0 h h :=
  ⟨hInv, fun _ _ => rfl, Nat.le_refl _⟩

theorem Step.trans {n0 : Nat} {h h1 h2 : Heap} (s1 : Step n0 h h1)
    (s2 : Step n0 h1 h2) : Step n0 h h2 :=
  ⟨s2.1, fun a ha => (s2.2.1 a ha).trans (s1.2.1 a ha),
    Nat.le_trans s1.2.2 s2.2.2⟩

theorem readCell_writeCell_self (h : Heap) (a : Addr) (flds : HFields) :
    readCell (writeCell h a flds) a = some flds :=
  mget_mset_self h.cells a flds

theorem readCell_writeCell_ne (h : Heap) (a a' : Addr) (flds : HFields)
    (hne : a' ≠ a) : readCell (writeCell h a flds) a' = readCell h a' :=
  mget_mset_ne h.cells a a' flds hne

theorem writeCell_step (n0 : Nat) (h : Heap) (a : Addr) (flds : HFields)
    (hInv : Inv n0 h) (ha : n0 ≤ a) (hf : fldsGE n0 flds) :
    Step n0 h (writeCell h a flds) ∧ (writeCell h a flds).next = h.next := by
  refine ⟨⟨⟨hInv.1, ?_⟩, ?_, Nat.le_refl _⟩, rfl⟩
  · intro b flds' hb hread
    by_cases hba : b = a
    · subst hba
      rw [readCell_writeCell_self] at hread
      cases hread
      exact hf
    · rw [readCell_writeCell_ne h a b flds hba] at hread
      exact hInv.2 b flds' hb hread
  · intro b hb
    exact readCell_writeCell_ne h a b flds (Nat.ne_of_lt (Nat.lt_of_lt_of_le hb ha))

theorem readCell_allocCell (h : Heap) (flds : HFields) (b : Addr) :
    readCell (allocCell h flds).2 b
      = if b = h.next then some flds else readCell h b := by
  by_cases hb : b = h.next
  · subst hb
    rw [if_pos rfl]
    exact mget_mset_self h.cells h.next flds
  · rw [if_neg hb]
    exact mget_mset_ne h.cells h.next b flds hb

theorem allocCell_step (n0 : Nat) (h : Heap) (flds : HFields)
    (hInv : Inv n0 h) (hf : fldsGE n0 flds) :
    Step n0 h (allocCell h flds).2 ∧ (allocCell h flds).1 = h.next
    ∧ (allocCell h flds).2.next = h.next + 1 := by
  refine ⟨⟨⟨Nat.le_trans hInv.1 (Nat.le_succ _), ?_⟩, ?_, Nat.le_succ _⟩,
    rfl, rfl⟩
  · intro b flds' hb hread
    rw [readCell_allocCell] at hread
    by_cases hbn : b = h.next
    · rw [if_pos hbn] at hread
      cases hread
      exact hf
    · rw [if_neg hbn] at hread
      exact hInv.2 b flds' hb hread
  · intro b hb
    rw [readCell_allocCell,
      if_neg (Nat.ne_of_lt (Nat.lt_of_lt_of_le hb hInv.1))]

mutual
theorem allocVal_step (n0 : Nat) : ∀ (v : JVal) (h : Heap), Inv n0 h →
    Step n0 h (allocVal h v).2 ∧ refGE n0 (allocVal h v).1
  | .undefined, h, hInv => ⟨Step.refl n0 h hInv, trivial⟩
  | .null, h, hInv => ⟨Step.refl n0 h hInv, trivial⟩
  | .bool _, h, hInv => ⟨Step.refl n0 h hInv, trivial⟩
  | .num _, h, hInv => ⟨Step.refl n0 h hInv, trivial⟩
  | .str _, h, hInv => ⟨Step.refl n0 h hInv, trivial⟩
  | .obj fs, h, hInv => by
      have s1 := allocFields_step n0 fs h hInv
      have s2 := allocCell_step n0 (allocFields h fs).2 (allocFields h fs).1
        s1.1.1 s1.2
      refine ⟨?_, ?_⟩
      · exact Step.trans s1.1 s2.1
      · show refGE n0 (.ref (allocCell (allocFields h fs).2 (allocFields h fs).1).1)
        rw [s2.2.1]
        exact Nat.le_trans hInv.1 s1.1.2.2

theorem allocFields_step (n0 : Nat) : ∀ (fs : JFields) (h : Heap), Inv n0 h →
    Step n0 h (allocFields h fs).2 ∧ fldsGE n0 (allocFields h fs).1
  | .nil, h, hInv => ⟨Step.refl n0 h hInv, fun kv hkv => by simp [allocFields] at hkv⟩
  | .cons k v rest, h, hInv => by
      have s1 := allocVal_step n0 v h hInv
      have s2 := allocFields_step n0 rest (allocVal h v).2 s1.1.1
      refine ⟨Step.trans s1.1 s2.1, ?_⟩
      intro kv hkv
      show refGE n0 kv.2
      have : kv = (k, (allocVal h v).1) ∨ kv ∈ (allocFields (allocVal h v).2 rest).1 := by
        simpa [allocFields] using List.mem_cons.1 hkv
      rcases this with rfl | hkv'
      · exact s1.2
      · exact s2.2 kv hkv'
end

theorem setPathH_step (n0 : Nat) :
    ∀ (parts : List String) (h : Heap) (cur v : HVal),
      Inv n0 h → refGE n0 cur → refGE n0 v →
      Step n0 h (setPathH h cur parts v).2
  | [], h, cur, v, hInv, _, _ => Step.refl n0 h hInv
  | [p], h, cur, v, hInv, hcur, hv => by
      cases cur with
      | prim q => exact Step.refl n0 h hInv
      | ref a =>
          cases hread : readCell h a with
          | none => simp only [setPathH, hread]; exact Step.refl n0 h hInv
          | some flds =>
              simp only [setPathH, hread]
              have hfge : fldsGE n0 (mset flds p v) := by
                intro kv hkv
                rcases mem_mset_or flds p v kv hkv with rfl | hkv'
                · exact hv
                · exact hInv.2 a flds hcur hread kv hkv'
              exact (writeCell_step n0 h a (mset flds p v) hInv hcur hfge).1
  | p :: q :: rest, h, cur, v, hInv, hcur, hv => by
      cases cur with
      | prim _ => exact Step.refl n0 h hInv
      | ref a =>
          cases hread : readCell h a with
          | none => simp only [setPathH, hread]; exact Step.refl n0 h hInv
          | some flds =>
              simp only [setPathH, hread]
              by_cases hhas : mhas flds p = true
              · rw [if_pos hhas]
                have hchild : refGE n0 ((mget flds p).getD (.prim .undefined)) := by
                  cases hm : mget flds p with
                  | none => simp [mhas, hm] at hhas
                  | some c =>
                      simp only [Option.getD]
                      exact hInv.2 a flds hcur hread (p, c) (mget_mem flds p c hm)
                exact setPathH_step n0 (q :: rest) h _ v hInv hchild hv
              · rw [if_neg hhas]
                have s1 := allocCell_step n0 h [] hInv
                  (fun kv hkv => by simp at hkv)
                have hfge : fldsGE n0 (mset flds p (.ref (allocCell h []).1)) := by
                  intro kv hkv
                  rcases mem_mset_or _ _ _ kv hkv with rfl | hkv'
                  · show refGE n0 (.ref (allocCell h []).1)
                    rw [s1.2.1]
                    exact hInv.1
                  · exact hInv.2 a flds hcur hread kv hkv'
                have s2 := writeCell_step n0 (allocCell h []).2 a
                  (mset flds p (.ref (allocCell h []).1)) s1.1.1 hcur hfge
                have s3 := setPathH_step n0 (q :: rest) _
                  (.ref (allocCell h []).1) v s2.1.1
                  (by show n0 ≤ (allocCell h []).1
                      rw [s1.2.1]
                      exact hInv.1) hv
                exact Step.trans (Step.trans s1.1 s2.1) s3

theorem removePathH_step (n0 : Nat) :
    ∀ (parts : List String) (h : Heap) (cur : HVal),
      Inv n0 h → refGE n0 cur →
      Step n0 h (removePathH h cur parts).2
  | [], h, cur, hInv, _ => Step.refl n0 h hInv
  | [p], h, cur, hInv, hcur => by
      cases cur with
      | prim q => cases q <;> exact Step.refl n0 h hInv
      | ref a =>
          cases hread : readCell h a with
          | none => simp only [removePathH, hread]; exact Step.refl n0 h hInv
          | some flds =>
              simp only [removePathH, hread]
              have hfge : fldsGE n0 (mdel flds p) := by
                intro kv hkv
                exact hInv.2 a flds hcur hread kv (mem_mdel flds p kv hkv)
              exact (writeCell_step n0 h a (mdel flds p) hInv hcur hfge).1
  | p :: q :: rest, h, cur, hInv, hcur => by
      cases cur with
      | prim pr => cases pr <;> exact Step.refl n0 h hInv
      | ref a =>
          cases hread : readCell h a with
          | none => simp only [removePathH, hread]; exact Step.refl n0 h hInv
          | some flds =>
              simp only [removePathH, hread]
              by_cases hfls : hFalsy ((mget flds p).getD (.prim .undefined)) = true
              · rw [if_pos hfls]
                exact Step.refl n0 h hInv
              · rw [if_neg hfls]
                have hchild : refGE n0 ((mget flds p).getD (.prim .undefined)) := by
                  cases hm : mget flds p with
                  | none => trivial
                  | some c =>
                      simp only [Option.getD]
                      exact hInv.2 a flds hcur hread (p, c) (mget_mem flds p c hm)
                exact removePathH_step n0 (q :: rest) h _ hInv hchild

theorem applyOperationH_step (n0 : Nat) (op : Op) (h : Heap) (root : HVal)
    (hInv : Inv n0 h) (hroot : refGE n0 root) :
    Step n0 h (applyOperationH h root op).2
    ∧ ∀ x, (applyOperationH h root op).1 = .ok x → refGE n0 x := by
  cases op with
  | add path v =>
      cases hsp : splitPath path with
      | nil =>
          simp only [applyOperationH, hsp]
          have s := allocVal_step n0 v h hInv
          exact ⟨s.1, fun x hx => by cases hx; exact s.2⟩
      | cons p rest =>
          simp only [applyOperationH, hsp]
          have s1 := allocVal_step n0 v h hInv
          have s2 := setPathH_step n0 (p :: rest) (allocVal h v).2 root
            (allocVal h v).1 s1.1.1 hroot s1.2
          rcases hm : setPathH (allocVal h v).2 root (p :: rest)
            (allocVal h v).1 with ⟨er, h2⟩
          rw [hm] at s2
          cases er with
          | ok u =>
              exact ⟨Step.trans s1.1 s2, fun x hx => by cases hx; exact hroot⟩
          | error e =>
              exact ⟨Step.trans s1.1 s2, fun x hx => by cases hx⟩
  | replace path v =>
      cases hsp : splitPath path with
      | nil =>
          simp only [applyOperationH, hsp]
          have s := allocVal_step n0 v h hInv
          exact ⟨s.1, fun x hx => by cases hx; exact s.2⟩
      | cons p rest =>
          simp only [applyOperationH, hsp]
          have s1 := allocVal_step n0 v h hInv
          have s2 := setPathH_step n0 (p :: rest) (allocVal h v).2 root
            (allocVal h v).1 s1.1.1 hroot s1.2
          rcases hm : setPathH (allocVal h v).2 root (p :: rest)
            (allocVal h v).1 with ⟨er, h2⟩
          rw [hm] at s2
          cases er with
          | ok u =>
              exact ⟨Step.trans s1.1 s2, fun x hx => by cases hx; exact hroot⟩
          | error e =>
              exact ⟨Step.trans s1.1 s2, fun x hx => by cases hx⟩
  | remove path =>
      cases hsp : splitPath path with
      | nil =>
          simp only [applyOperationH, hsp]
          exact ⟨Step.refl n0 h hInv, fun x hx => by cases hx; trivial⟩
      | cons p rest =>
          simp only [applyOperationH, hsp]
          have s := removePathH_step n0 (p :: rest) h root hInv hroot
          rcases hm : removePathH h root (p :: rest) with ⟨er, h2⟩
          rw [hm] at s
          cases er with
          | ok u => exact ⟨s, fun x hx => by cases hx; exact hroot⟩
          | error e => exact ⟨s, fun x hx => by cases hx⟩

theorem applyOpsH_step (n0 : Nat) :
    ∀ (ops : List Op) (h : Heap) (cur : HVal),
      Inv n0 h → refGE n0 cur →
      Step n0 h (applyOpsH h cur ops).2
  | [], h, cur, hInv, _ => Step.refl n0 h hInv
  | op :: rest, h, cur, hInv, hcur => by
      have s1 := applyOperationH_step n0 op h cur hInv hcur
      rcases hm : applyOperationH h cur op with ⟨er, h2⟩
      rw [hm] at s1
      simp only [applyOpsH, hm]
      cases er with
      | ok cur2 =>
          have s2 := applyOpsH_step n0 rest h2 cur2 s1.1.1
            (s1.2 cur2 rfl)
          exact Step.trans s1.1 s2
      | error e => exact s1.1

def spBelow (n0 : Nat) : Sum HVal HFields → Prop
  | .inl x => hvalBelow x n0 = true
  | .inr flds => ∀ kv ∈ flds, hvalBelow kv.2 n0 = true

/-- Reading below `n0` is insensitive to a heap change that agrees below
`n0`, provided the below-`n0` region is closed (refers only below `n0`). -/
theorem readSp_agree (n0 : Nat) (h h' : Heap)
    (hlow : LowAgree n0 h h')
    (hcl : ∀ a flds, readCell h a = some flds →
        ∀ kv ∈ flds, hvalBelow kv.2 n0 = true) :
    ∀ (fuel : Nat) (x : Sum HVal HFields), spBelow n0 x →
      readSp fuel h' x = readSp fuel h x := by
  intro fuel
  induction fuel with
  | zero => intro x _; rfl
  | succ fuel ih =>
      intro x hx
      match x with
      | .inl (.prim pr) => rfl
      | .inl (.ref a) =>
          have ha : a < n0 := by simpa [spBelow, hvalBelow] using hx
          show readSp (fuel + 1) h' (.inl (.ref a)) = _
          simp only [readSp]
          rw [hlow a ha]
          cases hread : readCell h a with
          | none => rfl
          | some flds =>
              have hrec := ih (.inr flds) (fun kv hkv => hcl a flds hread kv hkv)
              simp only [hrec]
      | .inr [] => rfl
      | .inr ((k, y) :: rest) =>
          have hy : hvalBelow y n0 = true :=
            hx (k, y) (List.mem_cons_self _ _)
          have hrest : spBelow n0 (.inr rest) :=
            fun kv hkv => hx kv (List.mem_cons_of_mem _ hkv)
          show readSp (fuel + 1) h' (.inr ((k, y) :: rest)) = _
          simp only [readSp]
          rw [ih (.inl y) hy, ih (.inr rest) hrest]

/-! ## Claim C10: `applyPatch` never mutates its input -/

/-- C10: on a well-formed heap, `applyPatch` leaves every cell that existed
before the call untouched — in particular the value denoted by the input
object is unchanged at any fuel — and a malformed patch (missing `diff`)
returns the input object itself with the heap unchanged. -/
theorem C10_applyPatch_no_mutation (fuel : Nat) (h : Heap) (root : HVal)
    (p : DPatch) (hclosed : heapClosedB h = true)
    (hroot : hvalBelow root h.next = true) :
    (∀ a, a < h.next →
        readCell (applyPatchH fuel h root p).2 a = readCell h a)
    ∧ (∀ (n : Nat) (v : JVal), readVal n h root = some v →
        readVal n (applyPatchH fuel h root p).2 root = some v)
    ∧ (p.diff = none → applyPatchH fuel h root p = (.ok root, h)) := by
  simp only [heapClosedB, List.all_eq_true, Bool.and_eq_true,
    decide_eq_true_eq] at hclosed
  have hcl : ∀ a flds, readCell h a = some flds →
      ∀ kv ∈ flds, hvalBelow kv.2 h.next = true := by
    intro a flds hread kv hkv
    have hmem := mget_mem h.cells a flds hread
    exact ((hclosed (a, flds) hmem).2 kv hkv)
  have hInv : Inv h.next h := by
    refine ⟨Nat.le_refl _, ?_⟩
    intro a flds ha hread
    have hmem := mget_mem h.cells a flds hread
    have hlt : a < h.next := (hclosed (a, flds) hmem).1
    exact absurd hlt (Nat.not_lt.2 ha)
  have hlow : LowAgree h.next h (applyPatchH fuel h root p).2 := by
    unfold applyPatchH
    cases hd : p.diff with
    | none => exact fun a _ => rfl
    | some ops =>
        simp only
        cases hrv : readVal fuel h root with
        | none => exact fun a _ => rfl
        | some jv =>
            simp only
            by_cases hu : jv = JVal.undefined
            · rw [if_pos hu]
              exact fun a _ => rfl
            · rw [if_neg hu]
              have s1 := allocVal_step h.next (jclone jv) h hInv
              have s2 := applyOpsH_step h.next ops (allocVal h (jclone jv)).2
                (allocVal h (jclone jv)).1 s1.1.1 s1.2
              exact (Step.trans s1.1 s2).2.1
  refine ⟨hlow, ?_, ?_⟩
  · intro n v hv
    have hagr := readSp_agree h.next h (applyPatchH fuel h root p).2 hlow hcl
      n (.inl root) (by simpa [spBelow] using hroot)
    unfold readVal at hv ⊢
    rw [hagr]
    exact hv
  · intro hd
    unfold applyPatchH
    rw [hd]

/-- C10 (witness): a one-cell heap `{a: 1}`, a `replace /a 2` patch, and
the malformed patch, evaluated concretely through the theorem. -/
theorem C10_applyPatch_no_mutation_witness :
    heapClosedB ⟨[(0, [("a", HVal.prim (.num 1))])], 1⟩ = true
    ∧ readCell (applyPatchH 8 ⟨[(0, [("a", HVal.prim (.num 1))])], 1⟩
        (.ref 0) ⟨some [.replace "/a" (.num 2)]⟩).2 0
      = readCell ⟨[(0, [("a", HVal.prim (.num 1))])], 1⟩ 0
    ∧ readVal 8 (applyPatchH 8 ⟨[(0, [("a", HVal.prim (.num 1))])], 1⟩
        (.ref 0) ⟨some [.replace "/a" (.num 2)]⟩).2 (.ref 0)
      = some (.obj (.cons "a" (.num 1) .nil))
    ∧ applyPatchH 8 ⟨[(0, [("a", HVal.prim (.num 1))])], 1⟩ (.ref 0) ⟨none⟩
      = (.ok (.ref 0), ⟨[(0, [("a", HVal.prim (.num 1))])], 1⟩) := by
  have h := C10_applyPatch_no_mutation 8 ⟨[(0, [("a", HVal.prim (.num 1))])], 1⟩
    (.ref 0) ⟨some [.replace "/a" (.num 2)]⟩ (by decide) (by decide)
  have h2 := C10_applyPatch_no_mutation 8 ⟨[(0, [("a", HVal.prim (.num 1))])], 1⟩
    (.ref 0) ⟨none⟩ (by decide) (by decide)
  exact ⟨by decide, h.1 0 (by decide),
    h.2.1 8 (.obj (.cons "a" (.num 1) .nil)) (by decide),
    h2.2.2 rfl⟩

end HeapModel

end CmsJs
